import Mathlib

/-!
# Peripheral viewer (`html_demos/viewer_app.js`)

A shallow embedding of the data-transformation core of the viewer: the
register bit-field layout (`renderDetail`, `createBitBlock`), the group index
(`processData`), the category classifier (`renderDashboard`) and the instance
list (`renderInstances`), followed by the properties proved about them.

JavaScript strings are sequences of UTF-16 code units, numbers that hold bit
positions are integers, and the DOM nodes a function appends are the elements
of the list it returns.
-/

namespace PeripheralViewer

/-! ## Strings -/

/-- A JavaScript string: its sequence of UTF-16 code units. -/
abbrev Str := List Nat

/-- The code units of an ASCII literal. -/
def ofAscii (s : String) : Str := s.data.map Char.toNat

/-- Template-literal conversion of an integer-valued number: its decimal digits. -/
def numToStr (n : Int) : Str := ofAscii (toString n)

/-! ## Register detail: data model -/

/-- A bit field of a register: `name`, `bitOffset` (LSB position) and `bitWidth`. -/
structure Field where
  name : Str
  bitOffset : Int
  bitWidth : Int
deriving DecidableEq, Repr

/-- A register as far as `renderDetail` reads its fields; `fields` may be missing. -/
structure Register where
  name : Str
  fields : Option (List Field)
deriving DecidableEq, Repr

/-- The `div.bit-block` built by `createBitBlock`: `field` is `none` for a block of
class `reserved`; `width` is the flex-grow value; the title shows `[startBit:lowBit]`;
`colorClass` is the index of the `bit-color-*` class; `text` is the text content. -/
structure BitBlock where
  field : Option Field
  width : Int
  startBit : Int
  lowBit : Int
  colorClass : Option Nat
  text : Str
deriving DecidableEq, Repr

/-- A row of the field table: its DOM id, the bit-range label and the field name. -/
structure FieldRow where
  rowId : Str
  range : Str
  name : Str
deriving DecidableEq, Repr

/-- The body of the field table: the placeholder row, or one row per field. -/
inductive FieldTable where
  | noBitfields
  | rows (rs : List FieldRow)
deriving DecidableEq, Repr

/-- What `renderDetail` leaves in the bit visualizer and in the field table. -/
structure DetailView where
  viz : List BitBlock
  table : FieldTable
deriving DecidableEq, Repr

/-! ## Register detail: code -/

/-- The helper `getMsb`: `f.bitOffset + f.bitWidth - 1`. -/
def getMsb (f : Field) : Int := f.bitOffset + f.bitWidth - 1

/-- The function `createBitBlock(field, width, startBit, colorIndex = 0)`. -/
def createBitBlock (field : Option Field) (width startBit : Int) (colorIndex : Nat) :
    BitBlock :=
  match field with
  | none =>
    { field := none, width := width, startBit := startBit,
      lowBit := startBit - width + 1, colorClass := none, text := [] }
  | some f =>
    { field := some f, width := width, startBit := startBit,
      lowBit := startBit - width + 1, colorClass := some (colorIndex % 5),
      text := if width > 1 then f.name else [] }

/-- The comparator of `fields.sort((a, b) => getMsb(b) - getMsb(a))` read as
"`a` may precede `b`": the comparator's value is not positive. -/
def msbOrder (a b : Field) : Prop := getMsb b - getMsb a ≤ 0

instance : DecidableRel msbOrder := fun a b => inferInstanceAs (Decidable (getMsb b - getMsb a ≤ 0))

/-- The call `fields.sort(...)` on the copy of `reg.fields`: a stable sort. -/
def sortFields (fields : List Field) : List Field := fields.insertionSort msbOrder

/-- The loop `fields.forEach((field, index) => ...)` of `renderDetail`, with the
visualizer's children and `currentBit` as the state. -/
def forEachField : List Field → Nat → List BitBlock × Int → List BitBlock × Int
  | [], _, st => st
  | field :: rest, index, (viz, currentBit) =>
    let msb := getMsb field
    let st1 : List BitBlock × Int :=
      if currentBit > msb then
        let gapWidth := currentBit - msb
        (viz ++ [createBitBlock none gapWidth currentBit 0], currentBit - gapWidth)
      else (viz, currentBit)
    forEachField rest (index + 1)
      (st1.1 ++ [createBitBlock (some field) field.bitWidth msb index], st1.2 - field.bitWidth)

/-- The bit-range label of a field row. -/
def rangeLabel (field : Field) : Str :=
  let msb := getMsb field
  if msb = field.bitOffset then numToStr msb
  else numToStr msb ++ ofAscii ":" ++ numToStr field.bitOffset

/-- The table row built for one field. -/
def fieldRow (field : Field) : FieldRow :=
  { rowId := ofAscii "field-row-" ++ field.name, range := rangeLabel field, name := field.name }

/-- The part of `renderDetail` after `const fields = ...`. -/
def layoutFields (fields0 : List Field) : DetailView :=
  let fields := sortFields fields0
  let st := forEachField fields 0 ([], 31)
  let viz :=
    if st.2 ≥ 0 then st.1 ++ [createBitBlock none (st.2 + 1) st.2 0] else st.1
  let table :=
    if fields.length = 0 then FieldTable.noBitfields else FieldTable.rows (fields.map fieldRow)
  { viz := viz, table := table }

/-- The fields `renderDetail` works on: `reg.fields ? [...reg.fields] : []`. -/
def regFields (reg : Register) : List Field :=
  match reg.fields with
  | some fs => fs
  | none => []

/-- The function `App.renderDetail(reg)`, restricted to the visualizer and the table. -/
def renderDetail (reg : Register) : DetailView := layoutFields (regFields reg)

/-! ## Group index and dashboard: data model -/

/-- A peripheral instance as far as the viewer's core reads it; `groupName` may be
missing. -/
structure Peripheral where
  name : Str
  groupName : Option Str
  baseAddress : Str
deriving DecidableEq, Repr

/-- An exception thrown by the JavaScript engine. -/
inductive JsError where
  | typeError
deriving DecidableEq, Repr

deriving instance DecidableEq for Except

/-- The own properties of the plain object `this.groups`, in creation order. -/
abbrev GroupIndex := List (Str × List Peripheral)

/-- The names every plain object inherits from `Object.prototype`; each of them
reads as a function or an object, hence as a truthy value without `push` or `sort`. -/
def objectPrototypeKeys : List Str :=
  [ofAscii "constructor", ofAscii "__defineGetter__", ofAscii "__defineSetter__",
   ofAscii "hasOwnProperty", ofAscii "__lookupGetter__", ofAscii "__lookupSetter__",
   ofAscii "isPrototypeOf", ofAscii "propertyIsEnumerable", ofAscii "toString",
   ofAscii "valueOf", ofAscii "__proto__", ofAscii "toLocaleString"]

/-- What reading `this.groups[k]` yields. -/
inductive PropValue where
  | array (a : List Peripheral)
  | inherited
  | undefined
deriving DecidableEq, Repr

/-- The property read `this.groups[k]`: an own property first, then the prototype. -/
def getProp (groups : GroupIndex) (k : Str) : PropValue :=
  match groups.lookup k with
  | some a => PropValue.array a
  | none => if k ∈ objectPrototypeKeys then PropValue.inherited else PropValue.undefined

/-- Overwrite the value of the own property `k`. -/
def setOwn (groups : GroupIndex) (k : Str) (v : List Peripheral) : GroupIndex :=
  groups.map (fun kv => if kv.1 = k then (kv.1, v) else kv)

/-- The state of `App` the core reads: `groups` and `sortedGroupNames`. -/
structure AppState where
  groups : GroupIndex
  sortedGroupNames : List Str
deriving DecidableEq, Repr

/-- A `div.module-card`: the group name and the instance count it shows. -/
structure ModuleCard where
  gName : Str
  count : Nat
deriving DecidableEq, Repr

/-- A `div.system-section`: its title and the cards of its module grid. -/
structure Section where
  title : Str
  mGrid : List ModuleCard
deriving DecidableEq, Repr

/-- What `renderDashboard` leaves in the dashboard grid and in the fallback grid. -/
structure Dashboard where
  grid : List Section
  fallbackGrid : List ModuleCard
deriving DecidableEq, Repr

/-! ## Built-in string operations -/

/-- Code-unit comparison `a < b` of two strings, as the default `sort` compares. -/
def strLt : Str → Str → Bool
  | _, [] => false
  | [], _ :: _ => true
  | a :: as, b :: bs => decide (a < b) || (a == b && strLt as bs)

/-- The relation "may precede" of the default comparator of `Array.prototype.sort`. -/
def strLe (a b : Str) : Prop := strLt b a = false

instance : DecidableRel strLe := fun a b => inferInstanceAs (Decidable (strLt b a = false))

/-- The call `s.includes(p)`: `p` occurs in `s` as a contiguous run of code units. -/
def includes : Str → Str → Bool
  | [], p => p.isEmpty
  | c :: s, p => p.isPrefixOf (c :: s) || includes s p

/-- The value of an array-index key (a canonical decimal string below `2^32 - 1`). -/
def arrayIndex? (s : Str) : Option Nat :=
  if s ≠ [] ∧ (s.all fun c => decide (48 ≤ c ∧ c ≤ 57)) = true ∧ (s.head? ≠ some 48 ∨ s.length = 1) then
    let v := s.foldl (fun acc c => 10 * acc + (c - 48)) 0
    if v < 2 ^ 32 - 1 then some v else none
  else none

/-- The order in which array-index keys are enumerated: ascending numeric value. -/
def indexOrder (a b : Str) : Prop := (arrayIndex? a).getD 0 ≤ (arrayIndex? b).getD 0

instance : DecidableRel indexOrder :=
  fun a b => inferInstanceAs (Decidable ((arrayIndex? a).getD 0 ≤ (arrayIndex? b).getD 0))

/-- The call `Object.keys(o)`: array-index keys in ascending numeric order, then the
other keys in creation order. -/
def objectKeys (o : GroupIndex) : List Str :=
  let ks := o.map Prod.fst
  (ks.filter fun k => (arrayIndex? k).isSome).insertionSort indexOrder ++
    ks.filter fun k => !(arrayIndex? k).isSome

/-- The call `names.sort()` with the default comparator. -/
def sortNames (names : List Str) : List Str := names.insertionSort strLe

/-- ASCII upper-casing; `toUpperCase` agrees with it on ASCII strings. -/
def asciiUpper (s : Str) : Str := s.map fun c => if 97 ≤ c ∧ c ≤ 122 then c - 32 else c

/-! ## Group index and dashboard: code -/

/-- The table `P_CATEGORIES`, in the order `Object.entries` enumerates it. -/
def P_CATEGORIES : List (Str × List Str) :=
  [(ofAscii "Core", ["SystemControl", "NVIC", "MPU", "STIR", "SCB", "FPU"].map ofAscii),
   (ofAscii "System", ["CCM", "CCM_ANALOG", "IOMUXC", "IOMUXC_GPR", "SNVS", "SRC", "GPC",
      "PMU", "TEMPMON", "XTALOSC24M", "OCOTP", "BEE", "DCP", "TRNG"].map ofAscii),
   (ofAscii "Memory", ["SEMC", "FLEXSPI", "FLEXSPI2", "FLEXRAM", "ROMC"].map ofAscii),
   (ofAscii "DMA", ["DMA0", "DMAMUX"].map ofAscii),
   (ofAscii "Analog", ["ADC", "ADC_ETC", "CMP", "AOI", "XBARA", "XBARB", "ACMP"].map ofAscii),
   (ofAscii "Timers", ["GPT", "PIT", "TMR", "PWM", "ENC", "EWM", "WDOG", "RTWDOG"].map ofAscii),
   (ofAscii "Display & Graphics", ["LCDIF", "PXP", "CSI"].map ofAscii),
   (ofAscii "Connectivity", ["LPUART", "LPI2C", "LPSPI", "FLEXIO", "USDHC", "ENET", "USB",
      "USBPHY", "USBNC", "CAN"].map ofAscii),
   (ofAscii "IO", ["GPIO", "KPP"].map ofAscii),
   (ofAscii "Audio", ["SAI", "SPDIF", "MQS"].map ofAscii)]

/-- The expression `periph.groupName || "Other"`: a missing or empty name is falsy. -/
def groupNameOf (periph : Peripheral) : Str :=
  match periph.groupName with
  | none => ofAscii "Other"
  | some s => if s = [] then ofAscii "Other" else s

/-- One iteration of the loop of `processData`:
`if (!this.groups[gName]) this.groups[gName] = []; this.groups[gName].push(periph)`. -/
def addPeripheral (groups : GroupIndex) (periph : Peripheral) : Except JsError GroupIndex :=
  let gName := groupNameOf periph
  let groups1 : GroupIndex :=
    match getProp groups gName with
    | PropValue.undefined => groups ++ [(gName, [])]
    | _ => groups
  match getProp groups1 gName with
  | PropValue.array a => Except.ok (setOwn groups1 gName (a ++ [periph]))
  | _ => Except.error JsError.typeError

/-- The loop `for (const [key, periph] of Object.entries(this.data))`. -/
def buildGroups : List Peripheral → GroupIndex → Except JsError GroupIndex
  | [], groups => Except.ok groups
  | periph :: rest, groups =>
    match addPeripheral groups periph with
    | Except.ok groups1 => buildGroups rest groups1
    | Except.error e => Except.error e

/-- The function `App.processData()`; `data` lists the peripherals in the order
`Object.entries(this.data)` enumerates them. -/
def processData (data : List Peripheral) : Except JsError AppState :=
  match buildGroups data [] with
  | Except.ok groups =>
    Except.ok { groups := groups, sortedGroupNames := sortNames (objectKeys groups) }
  | Except.error e => Except.error e

/-- The expression `this.groups[gName].length` of `createModuleCard`. The dashboard
passes keys of `this.groups` only; for any other name the value is `0` here. -/
def groupCount (st : AppState) (gName : Str) : Nat :=
  match st.groups.lookup gName with
  | some a => a.length
  | none => 0

/-- The function `createModuleCard(gName, parent)`: append the card to `parent`. -/
def createModuleCard (st : AppState) (gName : Str) (parent : List ModuleCard) :
    List ModuleCard :=
  parent ++ [{ gName := gName, count := groupCount st gName }]

/-- The test `patterns.some(p => gName.toUpperCase().includes(p.toUpperCase()) ||
p.toUpperCase() === gName.toUpperCase())`; `upper` is `toUpperCase`. -/
def matchesPatterns (upper : Str → Str) (patterns : List Str) (gName : Str) : Bool :=
  patterns.any fun p => includes (upper gName) (upper p) || upper p == upper gName

/-- The state of the scan of one category: the module grid, `usedGroups`, `hasItems`. -/
structure ScanState where
  mGrid : List ModuleCard
  usedGroups : List Str
  hasItems : Bool
deriving DecidableEq, Repr

/-- The body of `this.sortedGroupNames.forEach(gName => ...)` inside a category. -/
def scanStep (upper : Str → Str) (st : AppState) (patterns : List Str) (s : ScanState)
    (gName : Str) : ScanState :=
  if matchesPatterns upper patterns gName && !(s.usedGroups.contains gName) then
    { mGrid := createModuleCard st gName s.mGrid, usedGroups := s.usedGroups ++ [gName],
      hasItems := true }
  else s

/-- The body of `for (const [catName, patterns] of Object.entries(P_CATEGORIES))`. -/
def categoryStep (upper : Str → Str) (st : AppState) (s : List Section × List Str)
    (cat : Str × List Str) : List Section × List Str :=
  let r := st.sortedGroupNames.foldl (scanStep upper st cat.2)
    { mGrid := [], usedGroups := s.2, hasItems := false }
  (if r.hasItems then s.1 ++ [{ title := cat.1, mGrid := r.mGrid }] else s.1, r.usedGroups)

/-- The function `App.renderDashboard()`, with the category table and `toUpperCase`
as parameters. -/
def renderDashboard (upper : Str → Str) (categories : List (Str × List Str)) (st : AppState) :
    Dashboard :=
  let r := categories.foldl (categoryStep upper st) ([], [])
  let fallback := st.sortedGroupNames.foldl
    (fun fb gName => if !(r.2.contains gName) then createModuleCard st gName fb else fb) []
  { grid := r.1, fallbackGrid := fallback }

/-- The function `App.init()` up to `bindEvents`: with `window.MCU_DATA` present,
`processData` and then `renderDashboard`; an exception of `processData` leaves `init`
before anything is rendered. Without data nothing is rendered. -/
def init (upper : Str → Str) (categories : List (Str × List Str))
    (mcuData : Option (List Peripheral)) : Except JsError (Option (AppState × Dashboard)) :=
  match mcuData with
  | some data =>
    match processData data with
    | Except.ok st => Except.ok (some (st, renderDashboard upper categories st))
    | Except.error e => Except.error e
  | none => Except.ok none

/-- The comparator `(a, b) => a.name.localeCompare(b.name)` read as "`a` may precede
`b`"; `localeCompare` is a parameter. -/
def nameOrder (localeCompare : Str → Str → Int) (a b : Peripheral) : Prop :=
  localeCompare a.name b.name ≤ 0

instance (localeCompare : Str → Str → Int) : DecidableRel (nameOrder localeCompare) :=
  fun a b => inferInstanceAs (Decidable (localeCompare a.name b.name ≤ 0))

/-- The function `App.renderInstances(groupName)`: the new state of `App` and the
instance cards shown. `Array.prototype.sort` sorts the array of the group in place. -/
def renderInstances (localeCompare : Str → Str → Int) (st : AppState) (groupName : Str) :
    Except JsError (AppState × List Peripheral) :=
  match getProp st.groups groupName with
  | PropValue.array a =>
    let instances := a.insertionSort (nameOrder localeCompare)
    Except.ok ({ st with groups := setOwn st.groups groupName instances }, instances)
  | _ => Except.error JsError.typeError

/-- A stand-in for `localeCompare` on upper-case ASCII names: code-unit order. -/
def codeUnitCompare (a b : Str) : Int := if strLt a b then -1 else if strLt b a then 1 else 0

/-! ## Notions used to state the properties -/

/-- A field lies within bits 0..31 and has at least one bit. -/
def InRange (f : Field) : Prop := 0 ≤ f.bitOffset ∧ 1 ≤ f.bitWidth ∧ f.bitOffset + f.bitWidth ≤ 32

/-- The bit ranges of two fields do not intersect. -/
def NonOverlapping (f g : Field) : Prop :=
  f.bitOffset + f.bitWidth ≤ g.bitOffset ∨ g.bitOffset + g.bitWidth ≤ f.bitOffset

/-- A valid field list: every field in range, the fields pairwise non-overlapping. -/
def ValidFields (fs : List Field) : Prop := (∀ f ∈ fs, InRange f) ∧ fs.Pairwise NonOverlapping

/-- Bit `k` belongs to the range of field `f`. -/
def Covers (f : Field) (k : Int) : Prop := f.bitOffset ≤ k ∧ k ≤ getMsb f

/-- The reserved block `forEachField` puts before a field, if any. -/
def gapBlocks (cur : Int) (f : Field) : List BitBlock :=
  if cur > getMsb f then [createBitBlock none (cur - getMsb f) cur 0] else []

/-- The value of `currentBit` after one iteration of `forEachField`. -/
def nextBit (cur : Int) (f : Field) : Int :=
  (if cur > getMsb f then cur - (cur - getMsb f) else cur) - f.bitWidth

/-- The blocks `forEachField` appends, as a function of the start state. -/
def emitted : Int → Nat → List Field → List BitBlock
  | _, _, [] => []
  | cur, i, f :: rest =>
    gapBlocks cur f ++ createBitBlock (some f) f.bitWidth (getMsb f) i ::
      emitted (nextBit cur f) (i + 1) rest

/-- The value of `currentBit` when `forEachField` ends. -/
def finalBit : Int → List Field → Int
  | cur, [] => cur
  | cur, f :: rest => finalBit (nextBit cur f) rest

/-- The trailing reserved block of `renderDetail`, if any. -/
def trailing (cur : Int) : List BitBlock :=
  if cur ≥ 0 then [createBitBlock none (cur + 1) cur 0] else []

/-- The fields of `fs` lie below `cur`, each below the low end of the one before. -/
def Descends : Int → List Field → Prop
  | cur, [] => -1 ≤ cur
  | cur, f :: rest =>
    0 ≤ f.bitOffset ∧ 1 ≤ f.bitWidth ∧ getMsb f ≤ cur ∧ Descends (f.bitOffset - 1) rest

/-- The blocks `bs`, each at least one bit wide, cover bits `hi` down to `0` in order,
each starting one bit below the low end of the one before. -/
def Tiles : Int → List BitBlock → Prop
  | hi, [] => hi = -1
  | hi, b :: bs =>
    b.startBit = hi ∧ 1 ≤ b.width ∧ b.lowBit = b.startBit - b.width + 1 ∧ Tiles (b.lowBit - 1) bs

/-- Bits `hi` down to `lo` form a maximal run of bits of the word `[31..0]` that no
field of `fs` covers. -/
def MaximalFreeRun (fs : List Field) (hi lo : Int) : Prop :=
  0 ≤ lo ∧ lo ≤ hi ∧ hi ≤ 31 ∧
  (∀ k, lo ≤ k → k ≤ hi → ∀ f ∈ fs, ¬ Covers f k) ∧
  (hi = 31 ∨ ∃ f ∈ fs, Covers f (hi + 1)) ∧
  (lo = 0 ∨ ∃ f ∈ fs, Covers f (lo - 1))

/-- A segment as the specification describes it: a field segment carries its field,
a reserved segment none; it covers bits `msb` down to `lsb`. -/
structure Segment where
  field : Option Field
  msb : Int
  lsb : Int
deriving DecidableEq, Repr

/-- The segment a block of the visualizer stands for. -/
def BitBlock.segment (b : BitBlock) : Segment :=
  { field := b.field, msb := b.startBit, lsb := b.lowBit }

/-- Steps 3 and 4 of the algorithm of section 4.2 of the specification, written from
its words: before each field a reserved segment `[msb+1 .. currentBit]` when
`currentBit > msb`, then the field segment `[msb .. bitOffset]` and
`currentBit = bitOffset - 1`; at the end a reserved segment `[currentBit .. 0]` when
`currentBit >= 0`. -/
def specLayoutLoop : Int → List Field → List Segment
  | currentBit, [] =>
    if currentBit ≥ 0 then [{ field := none, msb := currentBit, lsb := 0 }] else []
  | currentBit, f :: rest =>
    let msb := f.bitOffset + f.bitWidth - 1
    (if currentBit > msb then [{ field := none, msb := currentBit, lsb := msb + 1 }] else []) ++
      { field := some f, msb := msb, lsb := f.bitOffset } :: specLayoutLoop (f.bitOffset - 1) rest

/-- The algorithm of section 4.2 of the specification, steps 1 to 4, on a 32-bit word:
sort the fields by descending MSB, then run the cursor from bit 31. -/
def specLayout (fs : List Field) : List Segment := specLayoutLoop 31 (sortFields fs)

/-- The fields of `fs` lie at or below `cur`, each below the low end of the one before. -/
def Stacked : Int → List Field → Prop
  | _, [] => True
  | cur, f :: rest => getMsb f ≤ cur ∧ Stacked (f.bitOffset - 1) rest

/-- A register with the fields `{bitOffset: 0, bitWidth: 4}` and `{bitOffset: 8, bitWidth: 4}`. -/
def twoNibbles : Register :=
  { name := ofAscii "CTRL",
    fields := some [⟨ofAscii "LO", 0, 4⟩, ⟨ofAscii "HI", 8, 4⟩] }

/-- A register with the single field `{bitOffset: 0, bitWidth: 32}`. -/
def fullWord : Register :=
  { name := ofAscii "DATA", fields := some [⟨ofAscii "VAL", 0, 32⟩] }

/-- A register with the single field `{bitOffset: 30, bitWidth: 4}`. -/
def outOfRange : Register :=
  { name := ofAscii "BAD", fields := some [⟨ofAscii "F", 30, 4⟩] }

/-- A register with the overlapping fields `{bitOffset: 8, bitWidth: 8}` and
`{bitOffset: 4, bitWidth: 8}`. -/
def overlapping : Register :=
  { name := ofAscii "OVL", fields := some [⟨ofAscii "A", 8, 8⟩, ⟨ofAscii "B", 4, 8⟩] }

instance : DecidablePred InRange :=
  fun f => inferInstanceAs (Decidable (0 ≤ f.bitOffset ∧ 1 ≤ f.bitWidth ∧ f.bitOffset + f.bitWidth ≤ 32))

instance : DecidableRel NonOverlapping :=
  fun f g => inferInstanceAs
    (Decidable (f.bitOffset + f.bitWidth ≤ g.bitOffset ∨ g.bitOffset + g.bitWidth ≤ f.bitOffset))

instance : DecidablePred ValidFields :=
  fun fs => inferInstanceAs (Decidable ((∀ f ∈ fs, InRange f) ∧ fs.Pairwise NonOverlapping))

/-- The card `createModuleCard` builds for a group name. -/
def cardOf (st : AppState) (gName : Str) : ModuleCard :=
  { gName := gName, count := groupCount st gName }

/-- The names one category claims from `names`, given the names `used` so far. -/
def pick (upper : Str → Str) (patterns : List Str) : List Str → List Str → List Str
  | _, [] => []
  | used, g :: ns =>
    if matchesPatterns upper patterns g && !(used.contains g) then
      g :: pick upper patterns (used ++ [g]) ns
    else pick upper patterns used ns

/-- The sections the category loop appends, as a function of the names used so far. -/
def sectionsFrom (upper : Str → Str) (st : AppState) :
    List Str → List (Str × List Str) → List Section
  | _, [] => []
  | used, cat :: rest =>
    (if (pick upper cat.2 used st.sortedGroupNames).isEmpty then []
     else [{ title := cat.1,
             mGrid := (pick upper cat.2 used st.sortedGroupNames).map (cardOf st) }]) ++
      sectionsFrom upper st (used ++ pick upper cat.2 used st.sortedGroupNames) rest

/-- The set `usedGroups` when the category loop ends. -/
def usedAfter (upper : Str → Str) (st : AppState) : List Str → List (Str × List Str) → List Str
  | used, [] => used
  | used, cat :: rest =>
    usedAfter upper st (used ++ pick upper cat.2 used st.sortedGroupNames) rest

/-- The group names of the cards inside the category sections, in document order. -/
def sectionNames (sections : List Section) : List Str :=
  (sections.map fun sec => sec.mGrid.map ModuleCard.gName).flatten

/-- The group names of all cards of the dashboard: category sections, then fallback grid. -/
def cardNames (d : Dashboard) : List Str :=
  sectionNames d.grid ++ d.fallbackGrid.map ModuleCard.gName

/-- The card of group `gName` stands in a section titled `catName`. -/
def PlacedUnder (d : Dashboard) (catName gName : Str) : Prop :=
  ∃ sec ∈ d.grid, sec.title = catName ∧ gName ∈ sec.mGrid.map ModuleCard.gName

/-- The first entry of the table, in table order, that has a pattern occurring
case-insensitively in `gName` is an entry named `catName`. -/
def FirstMatching (upper : Str → Str) (categories : List (Str × List Str))
    (catName gName : Str) : Prop :=
  ∃ pre pats post, categories = pre ++ (catName, pats) :: post ∧
    (∀ c ∈ pre, ∀ p ∈ c.2, ¬ upper p <:+: upper gName) ∧
    ∃ p ∈ pats, upper p <:+: upper gName

/-- A dataset with one peripheral of group `ADC_PIT`. -/
def adcPitData : List Peripheral :=
  [{ name := ofAscii "ADC_PIT1", groupName := some (ofAscii "ADC_PIT"),
     baseAddress := ofAscii "0x400C4000" }]

/-- A dataset with three UARTs listed out of name order, a GPIO and a peripheral
without group name. -/
def sampleData : List Peripheral :=
  [{ name := ofAscii "LPUART2", groupName := some (ofAscii "LPUART"),
     baseAddress := ofAscii "0x40188000" },
   { name := ofAscii "GPIO1", groupName := some (ofAscii "GPIO"),
     baseAddress := ofAscii "0x401B8000" },
   { name := ofAscii "LPUART1", groupName := some (ofAscii "LPUART"),
     baseAddress := ofAscii "0x40184000" },
   { name := ofAscii "MISC", groupName := none, baseAddress := ofAscii "0x40000000" }]

/-- The state `processData` builds from `sampleData`. -/
def sampleState : AppState :=
  { groups :=
      [(ofAscii "LPUART",
         [{ name := ofAscii "LPUART2", groupName := some (ofAscii "LPUART"),
            baseAddress := ofAscii "0x40188000" },
          { name := ofAscii "LPUART1", groupName := some (ofAscii "LPUART"),
            baseAddress := ofAscii "0x40184000" }]),
       (ofAscii "GPIO",
         [{ name := ofAscii "GPIO1", groupName := some (ofAscii "GPIO"),
            baseAddress := ofAscii "0x401B8000" }]),
       (ofAscii "Other",
         [{ name := ofAscii "MISC", groupName := none, baseAddress := ofAscii "0x40000000" }])],
    sortedGroupNames := [ofAscii "GPIO", ofAscii "LPUART", ofAscii "Other"] }

/-- A dataset with one peripheral whose group is named `constructor`. -/
def constructorData : List Peripheral :=
  [{ name := ofAscii "X1", groupName := some (ofAscii "constructor"),
     baseAddress := ofAscii "0x40000000" }]

/-- The state of `App` after `renderInstances("LPUART")` ran on `sampleState`. -/
def sampleStateAfter : AppState :=
  { groups :=
      [(ofAscii "LPUART",
         [{ name := ofAscii "LPUART1", groupName := some (ofAscii "LPUART"),
            baseAddress := ofAscii "0x40184000" },
          { name := ofAscii "LPUART2", groupName := some (ofAscii "LPUART"),
            baseAddress := ofAscii "0x40188000" }]),
       (ofAscii "GPIO",
         [{ name := ofAscii "GPIO1", groupName := some (ofAscii "GPIO"),
            baseAddress := ofAscii "0x401B8000" }]),
       (ofAscii "Other",
         [{ name := ofAscii "MISC", groupName := none, baseAddress := ofAscii "0x40000000" }])],
    sortedGroupNames := [ofAscii "GPIO", ofAscii "LPUART", ofAscii "Other"] }

/-- The sorted names a category claims: those one of its patterns occurs in and no
pattern of an earlier category `pre` does, in the order of `names`. -/
def claimedNames (upper : Str → Str) (names : List Str) (pre : List (Str × List Str))
    (patterns : List Str) : List Str :=
  names.filter fun g =>
    matchesPatterns upper patterns g && !(pre.any fun c => matchesPatterns upper c.2 g)

/-- The titles and card names of the sections of the dashboard, category by category
in table order, a category that claims no name having no section. -/
def expectedSections (upper : Str → Str) (names : List Str) :
    List (Str × List Str) → List (Str × List Str) → List (Str × List Str)
  | _, [] => []
  | pre, cat :: rest =>
    (if (claimedNames upper names pre cat.2).isEmpty then []
     else [(cat.1, claimedNames upper names pre cat.2)]) ++
      expectedSections upper names (pre ++ [cat]) rest

/-- Two tables list the same categories, each with the same patterns in some order. -/
def SamePatterns (cats1 cats2 : List (Str × List Str)) : Prop :=
  List.Forall₂ (fun c1 c2 => c1.1 = c2.1 ∧ c1.2.Perm c2.2) cats1 cats2

/-- A dataset, listed out of name order, with three groups of `Connectivity`, one of
`IO` and two groups no category claims. -/
def mixedData : List Peripheral :=
  [{ name := ofAscii "LPUART1", groupName := some (ofAscii "LPUART"),
     baseAddress := ofAscii "0x40184000" },
   { name := ofAscii "WIDGET0", groupName := some (ofAscii "WIDGET"),
     baseAddress := ofAscii "0x40010000" },
   { name := ofAscii "CAN1", groupName := some (ofAscii "CAN"),
     baseAddress := ofAscii "0x401D0000" },
   { name := ofAscii "GPIO1", groupName := some (ofAscii "GPIO"),
     baseAddress := ofAscii "0x401B8000" },
   { name := ofAscii "LPI2C1", groupName := some (ofAscii "LPI2C"),
     baseAddress := ofAscii "0x403F0000" },
   { name := ofAscii "AUX0", groupName := some (ofAscii "AUX"),
     baseAddress := ofAscii "0x40020000" },
   { name := ofAscii "LPUART2", groupName := some (ofAscii "LPUART"),
     baseAddress := ofAscii "0x40188000" }]

/-- The state `processData` builds from `mixedData`. -/
def mixedState : AppState :=
  { groups :=
      [(ofAscii "LPUART",
         [{ name := ofAscii "LPUART1", groupName := some (ofAscii "LPUART"),
            baseAddress := ofAscii "0x40184000" },
          { name := ofAscii "LPUART2", groupName := some (ofAscii "LPUART"),
            baseAddress := ofAscii "0x40188000" }]),
       (ofAscii "WIDGET",
         [{ name := ofAscii "WIDGET0", groupName := some (ofAscii "WIDGET"),
            baseAddress := ofAscii "0x40010000" }]),
       (ofAscii "CAN",
         [{ name := ofAscii "CAN1", groupName := some (ofAscii "CAN"),
            baseAddress := ofAscii "0x401D0000" }]),
       (ofAscii "GPIO",
         [{ name := ofAscii "GPIO1", groupName := some (ofAscii "GPIO"),
            baseAddress := ofAscii "0x401B8000" }]),
       (ofAscii "LPI2C",
         [{ name := ofAscii "LPI2C1", groupName := some (ofAscii "LPI2C"),
            baseAddress := ofAscii "0x403F0000" }]),
       (ofAscii "AUX",
         [{ name := ofAscii "AUX0", groupName := some (ofAscii "AUX"),
            baseAddress := ofAscii "0x40020000" }])],
    sortedGroupNames :=
      [ofAscii "AUX", ofAscii "CAN", ofAscii "GPIO", ofAscii "LPI2C", ofAscii "LPUART",
       ofAscii "WIDGET"] }

/-- The built-in table with the patterns of `Connectivity` listed in reverse. -/
def reversedConnectivity : List (Str × List Str) :=
  P_CATEGORIES.map fun c => if c.1 = ofAscii "Connectivity" then (c.1, c.2.reverse) else c

/-! ## Properties of the register layout -/

theorem forEachField_eq (fs : List Field) (i : Nat) (viz : List BitBlock) (cur : Int) :
    forEachField fs i (viz, cur) = (viz ++ emitted cur i fs, finalBit cur fs) := by
  induction fs generalizing i viz cur with
  | nil => simp [forEachField, emitted, finalBit]
  | cons f rest ih =>
    simp only [forEachField, emitted, finalBit, gapBlocks, nextBit]
    split_ifs with h
    · rw [ih]; simp
    · rw [ih]; simp

theorem layoutFields_viz (fs : List Field) :
    (layoutFields fs).viz =
      emitted 31 0 (sortFields fs) ++ trailing (finalBit 31 (sortFields fs)) := by
  simp only [layoutFields, forEachField_eq, trailing]
  split_ifs <;> simp

theorem msbOrder_total : IsTotal Field msbOrder :=
  ⟨fun a b => by unfold msbOrder; omega⟩

theorem msbOrder_trans : IsTrans Field msbOrder :=
  ⟨fun a b c h1 h2 => by unfold msbOrder at *; omega⟩

theorem sortFields_perm (fs : List Field) : (sortFields fs).Perm fs :=
  List.perm_insertionSort _ fs

theorem sortFields_sorted (fs : List Field) : (sortFields fs).Sorted msbOrder :=
  haveI := msbOrder_total
  haveI := msbOrder_trans
  List.sorted_insertionSort _ fs

theorem nonOverlapping_symm {f g : Field} (h : NonOverlapping f g) : NonOverlapping g f :=
  Or.symm h

/-- In a non-overlapping list sorted by descending MSB every field ends below the
start of the fields before it. -/
theorem sortFields_stacked (fs : List Field) (hw : ∀ f ∈ fs, 1 ≤ f.bitWidth)
    (hno : fs.Pairwise NonOverlapping) :
    (sortFields fs).Pairwise (fun f g => g.bitOffset + g.bitWidth ≤ f.bitOffset) := by
  have hp := sortFields_perm fs
  have h1 : (sortFields fs).Pairwise NonOverlapping :=
    (hp.pairwise_iff (fun h => nonOverlapping_symm h)).2 hno
  have h2 : (sortFields fs).Pairwise msbOrder := sortFields_sorted fs
  refine (h1.and h2).imp_of_mem ?_
  intro f g hf hg hfg
  have rf := hw f (hp.subset hf)
  have rg := hw g (hp.subset hg)
  rcases hfg with ⟨hno, hord⟩
  unfold NonOverlapping at hno
  unfold msbOrder getMsb at hord
  omega

theorem descends_of_stacked (s : List Field) (cur : Int) (hcur : -1 ≤ cur)
    (hr : ∀ f ∈ s, 0 ≤ f.bitOffset ∧ 1 ≤ f.bitWidth ∧ getMsb f ≤ cur)
    (hs : s.Pairwise (fun f g => g.bitOffset + g.bitWidth ≤ f.bitOffset)) :
    Descends cur s := by
  induction s generalizing cur with
  | nil => exact hcur
  | cons f rest ih =>
    have hf := hr f (List.mem_cons_self _ _)
    rw [List.pairwise_cons] at hs
    refine ⟨hf.1, hf.2.1, hf.2.2, ih _ (by omega) ?_ hs.2⟩
    intro g hg
    have hg1 := hr g (List.mem_cons_of_mem _ hg)
    have hg2 := hs.1 g hg
    refine ⟨hg1.1, hg1.2.1, ?_⟩
    unfold getMsb
    omega

theorem descends_sortFields (fs : List Field) (h : ValidFields fs) :
    Descends 31 (sortFields fs) := by
  refine descends_of_stacked _ 31 (by omega) ?_
    (sortFields_stacked fs (fun f hf => (h.1 f hf).2.1) h.2)
  intro f hf
  have rf := h.1 f ((sortFields_perm fs).subset hf)
  unfold InRange at rf
  unfold getMsb
  omega

theorem nextBit_of_le {cur : Int} {f : Field} (h : getMsb f ≤ cur) :
    nextBit cur f = f.bitOffset - 1 := by
  unfold nextBit
  unfold getMsb at *
  split_ifs <;> omega

theorem tiles_emitted (fs : List Field) (cur : Int) (i : Nat) (h : Descends cur fs) :
    Tiles cur (emitted cur i fs ++ trailing (finalBit cur fs)) := by
  induction fs generalizing cur i with
  | nil =>
    simp only [emitted, finalBit, trailing, List.nil_append]
    simp only [Descends] at h
    split_ifs with hc
    · refine ⟨rfl, ?_, rfl, ?_⟩
      · show (1 : Int) ≤ cur + 1
        omega
      · show cur - (cur + 1) + 1 - 1 = -1
        omega
    · show cur = -1
      omega
  | cons f rest ih =>
    obtain ⟨h0, h1, h2, h3⟩ := h
    have ih1 := ih (f.bitOffset - 1) (i + 1) h3
    simp only [emitted, finalBit, nextBit_of_le h2, gapBlocks]
    have hfield : Tiles (getMsb f)
        (createBitBlock (some f) f.bitWidth (getMsb f) i ::
          (emitted (f.bitOffset - 1) (i + 1) rest ++ trailing (finalBit (f.bitOffset - 1) rest))) := by
      refine ⟨rfl, h1, rfl, ?_⟩
      have : (createBitBlock (some f) f.bitWidth (getMsb f) i).lowBit - 1 = f.bitOffset - 1 := by
        simp only [createBitBlock, getMsb]; omega
      rw [this]
      exact ih1
    split_ifs with hc
    · simp only [List.singleton_append, List.cons_append]
      refine ⟨rfl, ?_, rfl, ?_⟩
      · simp only [createBitBlock]; omega
      · have : (createBitBlock none (cur - getMsb f) cur 0).lowBit - 1 = getMsb f := by
          simp only [createBitBlock]; omega
        rw [this]
        exact hfield
    · have : cur = getMsb f := by omega
      simp only [List.nil_append, List.cons_append]
      rw [this]
      exact hfield

theorem tiles_viz (fs : List Field) (h : ValidFields fs) : Tiles 31 (layoutFields fs).viz := by
  rw [layoutFields_viz]
  exact tiles_emitted _ _ _ (descends_sortFields fs h)

theorem tiles_head (hi : Int) (bs : List BitBlock) (h : Tiles hi bs) (hhi : 0 ≤ hi) :
    bs.head?.map BitBlock.startBit = some hi := by
  cases bs with
  | nil => simp only [Tiles] at h; omega
  | cons b bs => simp [h.1]

theorem tiles_chain (hi : Int) (bs : List BitBlock) (h : Tiles hi bs) :
    bs.Chain' (fun a b => b.startBit = a.lowBit - 1) := by
  induction bs generalizing hi with
  | nil => exact List.chain'_nil
  | cons b bs ih =>
    obtain ⟨_, _, _, h4⟩ := h
    refine (ih _ h4).cons' ?_
    intro y hy
    cases bs with
    | nil => simp at hy
    | cons c cs =>
      simp only [List.head?_cons, Option.mem_def, Option.some.injEq] at hy
      subst hy
      exact h4.1

theorem tiles_last (hi : Int) (bs : List BitBlock) (h : Tiles hi bs) (hhi : 0 ≤ hi) :
    bs.getLast?.map BitBlock.lowBit = some 0 := by
  induction bs generalizing hi with
  | nil => simp only [Tiles] at h; omega
  | cons b bs ih =>
    obtain ⟨h1, h2, h3, h4⟩ := h
    cases bs with
    | nil =>
      simp only [Tiles] at h4
      simp only [List.getLast?_singleton, Option.map_some', Option.some.injEq]
      omega
    | cons c cs =>
      rw [List.getLast?_cons_cons]
      refine ih _ h4 ?_
      have := h4.1
      have := h4.2.1
      have := h4.2.2.1
      have hcs : Tiles (c.lowBit - 1) cs := h4.2.2.2
      have hge : ∀ (k : Int) (l : List BitBlock), Tiles k l → -1 ≤ k := by
        intro k l
        induction l generalizing k with
        | nil => intro hk; simp only [Tiles] at hk; omega
        | cons d ds ihd =>
          intro hk
          have := ihd _ hk.2.2.2
          have := hk.1
          have := hk.2.1
          have := hk.2.2.1
          omega
      have := hge _ _ hcs
      omega

theorem tiles_sum (hi : Int) (bs : List BitBlock) (h : Tiles hi bs) :
    (bs.map BitBlock.width).sum = hi + 1 := by
  induction bs generalizing hi with
  | nil => simp only [Tiles] at h; simp; omega
  | cons b bs ih =>
    obtain ⟨h1, h2, h3, h4⟩ := h
    simp only [List.map_cons, List.sum_cons, ih _ h4]
    omega

theorem tiles_width (hi : Int) (bs : List BitBlock) (h : Tiles hi bs) :
    ∀ b ∈ bs, 1 ≤ b.width ∧ b.lowBit = b.startBit - b.width + 1 := by
  induction bs generalizing hi with
  | nil => simp
  | cons b bs ih =>
    obtain ⟨h1, h2, h3, h4⟩ := h
    intro c hc
    rcases List.mem_cons.1 hc with rfl | hc
    · exact ⟨h2, h3⟩
    · exact ih _ h4 c hc

/-- C1. Partition completeness: for a register whose fields are in range, at least
one bit wide and pairwise non-overlapping, the blocks `renderDetail` emits cover bits
31 down to 0 exactly: the first block starts at bit 31, each next block starts one bit
below the low end of the block before, the last block ends at bit 0, every block is at
least one bit wide and spans `[startBit .. startBit - width + 1]`, and the widths sum
to 32. -/
theorem renderDetail_partition (reg : Register) (h : ValidFields (regFields reg)) :
    ((renderDetail reg).viz.head?.map BitBlock.startBit = some 31) ∧
    (renderDetail reg).viz.Chain' (fun a b => b.startBit = a.lowBit - 1) ∧
    ((renderDetail reg).viz.getLast?.map BitBlock.lowBit = some 0) ∧
    (∀ b ∈ (renderDetail reg).viz, 1 ≤ b.width ∧ b.lowBit = b.startBit - b.width + 1) ∧
    ((renderDetail reg).viz.map BitBlock.width).sum = 32 := by
  have ht := tiles_viz (regFields reg) h
  exact ⟨tiles_head _ _ ht (by omega), tiles_chain _ _ ht, tiles_last _ _ ht (by omega),
    tiles_width _ _ ht, tiles_sum _ _ ht⟩

/-- Witness of C1: the register with the fields `{0, 4}` and `{8, 4}`. -/
theorem renderDetail_partition_witness :
    ValidFields (regFields twoNibbles) ∧
    ((renderDetail twoNibbles).viz.head?.map BitBlock.startBit = some 31) ∧
    (renderDetail twoNibbles).viz.Chain' (fun a b => b.startBit = a.lowBit - 1) ∧
    ((renderDetail twoNibbles).viz.getLast?.map BitBlock.lowBit = some 0) ∧
    (∀ b ∈ (renderDetail twoNibbles).viz, 1 ≤ b.width ∧ b.lowBit = b.startBit - b.width + 1) ∧
    ((renderDetail twoNibbles).viz.map BitBlock.width).sum = 32 :=
  ⟨by decide, renderDetail_partition twoNibbles (by decide)⟩

theorem emitted_fields (fs : List Field) (cur : Int) (i : Nat) (c : Int) :
    (emitted cur i fs ++ trailing c).filterMap BitBlock.field = fs := by
  induction fs generalizing cur i with
  | nil =>
    simp only [emitted, trailing, List.nil_append]
    split_ifs <;> simp [createBitBlock]
  | cons f rest ih =>
    simp only [emitted, gapBlocks]
    split_ifs
    · simp [createBitBlock, List.filterMap_cons, ih]
    · simp [createBitBlock, List.filterMap_cons, ih]

theorem layoutFields_fields (fs : List Field) :
    (layoutFields fs).viz.filterMap BitBlock.field = sortFields fs := by
  rw [layoutFields_viz, emitted_fields]

theorem emitted_field_block (fs : List Field) (cur : Int) (i : Nat) (c : Int) :
    ∀ b ∈ emitted cur i fs ++ trailing c, ∀ f, b.field = some f →
      b.width = f.bitWidth ∧ b.startBit = getMsb f ∧ b.lowBit = f.bitOffset := by
  induction fs generalizing cur i with
  | nil =>
    intro b hb f hf
    simp only [emitted, trailing, List.nil_append] at hb
    split_ifs at hb
    · simp only [List.mem_singleton] at hb
      subst hb
      simp [createBitBlock] at hf
    · simp at hb
  | cons g rest ih =>
    intro b hb f hf
    simp only [emitted, gapBlocks, List.append_assoc, List.cons_append, List.mem_append,
      List.mem_cons] at hb
    rcases hb with hb | hb | hb
    · split_ifs at hb
      · simp only [List.mem_singleton] at hb
        subst hb
        simp [createBitBlock] at hf
      · simp at hb
    · subst hb
      simp only [createBitBlock, Option.some.injEq] at hf
      subst hf
      refine ⟨rfl, rfl, ?_⟩
      show getMsb g - g.bitWidth + 1 = g.bitOffset
      unfold getMsb
      omega
    · exact ih _ _ b (List.mem_append.2 hb) f hf

theorem emitted_no_adjacent_reserved (fs : List Field) (cur : Int) (i : Nat) (c : Int) :
    (emitted cur i fs ++ trailing c).Chain' (fun a b => ¬ (a.field = none ∧ b.field = none)) := by
  induction fs generalizing cur i with
  | nil =>
    simp only [emitted, trailing, List.nil_append]
    split_ifs
    · exact List.chain'_singleton _
    · exact List.chain'_nil
  | cons f rest ih =>
    have hfield : (createBitBlock (some f) f.bitWidth (getMsb f) i ::
        (emitted (nextBit cur f) (i + 1) rest ++ trailing c)).Chain'
        (fun a b => ¬ (a.field = none ∧ b.field = none)) := by
      refine (ih _ _).cons' ?_
      intro y _ hy
      simp [createBitBlock] at hy
    simp only [emitted, gapBlocks]
    split_ifs
    · simp only [List.singleton_append, List.cons_append]
      refine hfield.cons' ?_
      intro y hy h
      simp only [List.head?_cons, Option.mem_def, Option.some.injEq] at hy
      subst hy
      simp [createBitBlock] at h
    · simpa using hfield

theorem descends_bounds (s : List Field) (cur : Int) (h : Descends cur s) :
    -1 ≤ cur ∧ ∀ f ∈ s, 0 ≤ f.bitOffset ∧ 1 ≤ f.bitWidth ∧ getMsb f ≤ cur := by
  induction s generalizing cur with
  | nil => exact ⟨h, by simp⟩
  | cons g rest ih =>
    obtain ⟨h0, h1, h2, h3⟩ := h
    have ih1 := ih _ h3
    unfold getMsb at *
    refine ⟨by omega, ?_⟩
    intro f hf
    rcases List.mem_cons.1 hf with rfl | hf
    · exact ⟨h0, h1, h2⟩
    · have := ih1.2 f hf
      omega

/-- Every reserved block emitted for a descending field list is a non-empty run of
bits no field covers, bounded above by the cursor or a field and below by bit 0 or a
field. -/
theorem reserved_sound (s : List Field) (cur : Int) (i : Nat) (h : Descends cur s) :
    ∀ b ∈ emitted cur i s ++ trailing (finalBit cur s), b.field = none →
      0 ≤ b.lowBit ∧ b.lowBit ≤ b.startBit ∧ b.startBit ≤ cur ∧
      (∀ k, b.lowBit ≤ k → k ≤ b.startBit → ∀ f ∈ s, ¬ Covers f k) ∧
      (b.startBit = cur ∨ ∃ f ∈ s, Covers f (b.startBit + 1)) ∧
      (b.lowBit = 0 ∨ ∃ f ∈ s, Covers f (b.lowBit - 1)) := by
  induction s generalizing cur i with
  | nil =>
    intro b hb _
    simp only [emitted, finalBit, trailing, List.nil_append] at hb
    split_ifs at hb with hc
    · simp only [List.mem_singleton] at hb
      subst hb
      simp only [createBitBlock]
      refine ⟨by omega, by omega, by omega, ?_, Or.inl trivial, Or.inl (by omega)⟩
      intro k _ _ f hf
      simp at hf
    · simp at hb
  | cons g rest ih =>
    intro b hb hres
    obtain ⟨h0, h1, h2, h3⟩ := h
    have hrest := descends_bounds _ _ h3
    simp only [emitted, finalBit, nextBit_of_le h2, gapBlocks, List.append_assoc,
      List.cons_append, List.mem_append, List.mem_cons] at hb
    rcases hb with hb | hb | hb
    · split_ifs at hb with hc
      · simp only [List.mem_singleton] at hb
        subst hb
        simp only [createBitBlock]
        unfold getMsb at *
        refine ⟨by omega, by omega, by omega, ?_, Or.inl trivial, Or.inr ⟨g, List.mem_cons_self _ _, ?_⟩⟩
        · intro k hk1 hk2 f hf hcov
          unfold Covers getMsb at hcov
          rcases List.mem_cons.1 hf with rfl | hf
          · omega
          · have := hrest.2 f hf
            unfold getMsb at this
            omega
        · unfold Covers getMsb
          omega
      · simp at hb
    · subst hb
      simp [createBitBlock] at hres
    · have := ih (g.bitOffset - 1) (i + 1) h3 b (List.mem_append.2 hb) hres
      obtain ⟨a1, a2, a3, a4, a5, a6⟩ := this
      unfold getMsb at h2
      refine ⟨a1, a2, by omega, ?_, ?_, ?_⟩
      · intro k hk1 hk2 f hf hcov
        rcases List.mem_cons.1 hf with rfl | hf
        · unfold Covers at hcov
          omega
        · exact a4 k hk1 hk2 f hf hcov
      · right
        rcases a5 with a5 | ⟨f, hf, hcov⟩
        · refine ⟨g, List.mem_cons_self _ _, ?_⟩
          unfold Covers getMsb
          omega
        · exact ⟨f, List.mem_cons_of_mem _ hf, hcov⟩
      · rcases a6 with a6 | ⟨f, hf, hcov⟩
        · exact Or.inl a6
        · exact Or.inr ⟨f, List.mem_cons_of_mem _ hf, hcov⟩

/-- Every bit at or below the cursor that no field covers lies in a reserved block. -/
theorem reserved_complete (s : List Field) (cur : Int) (i : Nat) (h : Descends cur s) :
    ∀ k, 0 ≤ k → k ≤ cur → (∀ f ∈ s, ¬ Covers f k) →
      ∃ b ∈ emitted cur i s ++ trailing (finalBit cur s),
        b.field = none ∧ b.lowBit ≤ k ∧ k ≤ b.startBit := by
  induction s generalizing cur i with
  | nil =>
    intro k hk0 hk1 _
    simp only [emitted, finalBit, trailing, List.nil_append]
    rw [if_pos (by omega)]
    refine ⟨_, List.mem_singleton.2 rfl, rfl, ?_, ?_⟩
    · simp only [createBitBlock]; omega
    · simp only [createBitBlock]; omega
  | cons g rest ih =>
    intro k hk0 hk1 hfree
    obtain ⟨h0, h1, h2, h3⟩ := h
    simp only [emitted, finalBit, nextBit_of_le h2, gapBlocks]
    by_cases hk : getMsb g < k
    · rw [if_pos (by omega)]
      refine ⟨createBitBlock none (cur - getMsb g) cur 0, by simp, rfl, ?_, ?_⟩
      · simp only [createBitBlock]; omega
      · simp only [createBitBlock]; omega
    · have hg := hfree g (List.mem_cons_self _ _)
      unfold Covers at hg
      have hk2 : k ≤ g.bitOffset - 1 := by omega
      obtain ⟨b, hb, hb1, hb2, hb3⟩ :=
        ih (g.bitOffset - 1) (i + 1) h3 k hk0 hk2 (fun f hf => hfree f (List.mem_cons_of_mem _ hf))
      refine ⟨b, ?_, hb1, hb2, hb3⟩
      simp only [List.append_assoc, List.cons_append, List.mem_append, List.mem_cons]
      rcases List.mem_append.1 hb with hb | hb
      · exact Or.inr (Or.inr (Or.inl hb))
      · exact Or.inr (Or.inr (Or.inr hb))

theorem tiles_pairwise (hi : Int) (bs : List BitBlock) (h : Tiles hi bs) :
    (∀ b ∈ bs, b.startBit ≤ hi) ∧ bs.Pairwise (fun a b => b.startBit < a.lowBit) := by
  induction bs generalizing hi with
  | nil => exact ⟨by simp, List.Pairwise.nil⟩
  | cons b bs ih =>
    obtain ⟨h1, h2, h3, h4⟩ := h
    have ih1 := ih _ h4
    constructor
    · intro c hc
      rcases List.mem_cons.1 hc with rfl | hc
      · omega
      · have := ih1.1 c hc
        omega
    · refine List.pairwise_cons.2 ⟨?_, ih1.2⟩
      intro c hc
      have := ih1.1 c hc
      omega

/-- The reserved blocks of a valid register are exactly its maximal free runs. -/
theorem reserved_iff_maximalFreeRun (fs : List Field) (h : ValidFields fs) (hi lo : Int) :
    MaximalFreeRun fs hi lo ↔
      ∃ b ∈ (layoutFields fs).viz, b.field = none ∧ b.startBit = hi ∧ b.lowBit = lo := by
  have hd := descends_sortFields fs h
  have hmem : ∀ f, f ∈ sortFields fs ↔ f ∈ fs := fun f => (sortFields_perm fs).mem_iff
  rw [layoutFields_viz]
  constructor
  · rintro ⟨m1, m2, m3, m4, m5, m6⟩
    obtain ⟨b, hb, hb1, hb2, hb3⟩ := reserved_complete _ 31 0 hd hi (by omega) m3
      (fun f hf => m4 hi m2 (le_refl _) f ((hmem f).1 hf))
    obtain ⟨a1, a2, a3, a4, a5, a6⟩ := reserved_sound _ 31 0 hd b hb hb1
    refine ⟨b, hb, hb1, ?_, ?_⟩
    · by_contra hne
      have hlt : hi + 1 ≤ b.startBit := by omega
      rcases m5 with m5 | ⟨f, hf, hcov⟩
      · omega
      · exact a4 (hi + 1) (by omega) hlt f ((hmem f).2 hf) hcov
    · by_contra hne
      rcases lt_or_gt_of_ne hne with hlt | hgt
      · rcases m6 with m6 | ⟨f, hf, hcov⟩
        · omega
        · exact a4 (lo - 1) (by omega) (by omega) f ((hmem f).2 hf) hcov
      · rcases a6 with a6 | ⟨f, hf, hcov⟩
        · omega
        · exact m4 (b.lowBit - 1) (by omega) (by omega) f ((hmem f).1 hf) hcov
  · rintro ⟨b, hb, hb1, rfl, rfl⟩
    obtain ⟨a1, a2, a3, a4, a5, a6⟩ := reserved_sound _ 31 0 hd b hb hb1
    refine ⟨a1, a2, a3, ?_, ?_, ?_⟩
    · intro k hk1 hk2 f hf
      exact a4 k hk1 hk2 f ((hmem f).2 hf)
    · rcases a5 with a5 | ⟨f, hf, hcov⟩
      · exact Or.inl a5
      · exact Or.inr ⟨f, (hmem f).1 hf, hcov⟩
    · rcases a6 with a6 | ⟨f, hf, hcov⟩
      · exact Or.inl a6
      · exact Or.inr ⟨f, (hmem f).1 hf, hcov⟩

theorem sortFields_strict (fs : List Field) (h : ValidFields fs) :
    (sortFields fs).Pairwise (fun f g => getMsb g < getMsb f) := by
  refine (sortFields_stacked fs (fun f hf => (h.1 f hf).2.1) h.2).imp_of_mem ?_
  intro f g hf _ hfg
  have rf := h.1 f ((sortFields_perm fs).subset hf)
  unfold InRange at rf
  unfold getMsb
  omega

/-- C2. Reserved-gap synthesis: for a register with a valid field list, the field
blocks of the diagram are the fields in strictly descending MSB order, one block per
field, each covering `[bitOffset + bitWidth - 1 .. bitOffset]`; the reserved blocks
are exactly the maximal runs of bits no field covers; no reserved block is empty, no
two blocks share a bit and no two reserved blocks are adjacent. An empty field list
gives the single reserved block `[31..0]`, the field `{0, 32}` gives one field block
`[31..0]` and no reserved block, and the fields `{0, 4}` and `{8, 4}` give reserved
`[31..12]`, field `[11..8]`, reserved `[7..4]`, field `[3..0]`. -/
theorem renderDetail_reserved_gaps :
    (∀ reg : Register, ValidFields (regFields reg) →
      (renderDetail reg).viz.filterMap BitBlock.field = sortFields (regFields reg) ∧
      (sortFields (regFields reg)).Perm (regFields reg) ∧
      (sortFields (regFields reg)).Pairwise (fun f g => getMsb g < getMsb f) ∧
      (∀ b ∈ (renderDetail reg).viz, ∀ f, b.field = some f →
        b.width = f.bitWidth ∧ b.startBit = f.bitOffset + f.bitWidth - 1 ∧
        b.lowBit = f.bitOffset) ∧
      (∀ hi lo, MaximalFreeRun (regFields reg) hi lo ↔
        ∃ b ∈ (renderDetail reg).viz, b.field = none ∧ b.startBit = hi ∧ b.lowBit = lo) ∧
      (∀ b ∈ (renderDetail reg).viz, 1 ≤ b.width ∧ b.lowBit = b.startBit - b.width + 1) ∧
      (renderDetail reg).viz.Pairwise (fun a b => b.startBit < a.lowBit) ∧
      (renderDetail reg).viz.Chain' (fun a b => ¬ (a.field = none ∧ b.field = none))) ∧
    (renderDetail { name := ofAscii "R", fields := some [] }).viz =
      [{ field := none, width := 32, startBit := 31, lowBit := 0, colorClass := none,
         text := [] }] ∧
    (renderDetail fullWord).viz =
      [{ field := some ⟨ofAscii "VAL", 0, 32⟩, width := 32, startBit := 31, lowBit := 0,
         colorClass := some 0, text := ofAscii "VAL" }] ∧
    (renderDetail twoNibbles).viz =
      [{ field := none, width := 20, startBit := 31, lowBit := 12, colorClass := none,
         text := [] },
       { field := some ⟨ofAscii "HI", 8, 4⟩, width := 4, startBit := 11, lowBit := 8,
         colorClass := some 0, text := ofAscii "HI" },
       { field := none, width := 4, startBit := 7, lowBit := 4, colorClass := none,
         text := [] },
       { field := some ⟨ofAscii "LO", 0, 4⟩, width := 4, startBit := 3, lowBit := 0,
         colorClass := some 1, text := ofAscii "LO" }] := by
  refine ⟨?_, by decide, by decide, by decide⟩
  intro reg h
  have ht := tiles_viz (regFields reg) h
  refine ⟨layoutFields_fields _, sortFields_perm _, sortFields_strict _ h, ?_,
    fun hi lo => reserved_iff_maximalFreeRun _ h hi lo, tiles_width _ _ ht,
    (tiles_pairwise _ _ ht).2, ?_⟩
  · intro b hb f hf
    have hb1 : b ∈ emitted 31 0 (sortFields (regFields reg)) ++
        trailing (finalBit 31 (sortFields (regFields reg))) := by
      rw [← layoutFields_viz]; exact hb
    exact emitted_field_block _ _ _ _ b hb1 f hf
  · show (layoutFields (regFields reg)).viz.Chain' _
    rw [layoutFields_viz]
    exact emitted_no_adjacent_reserved _ _ _ _

/-- Witness of C2: the register with the fields `{0, 4}` and `{8, 4}`. -/
theorem renderDetail_reserved_gaps_witness :
    ValidFields (regFields twoNibbles) ∧
    (renderDetail twoNibbles).viz.filterMap BitBlock.field = sortFields (regFields twoNibbles) ∧
    (∀ hi lo, MaximalFreeRun (regFields twoNibbles) hi lo ↔
        ∃ b ∈ (renderDetail twoNibbles).viz, b.field = none ∧ b.startBit = hi ∧ b.lowBit = lo) :=
  ⟨by decide, (renderDetail_reserved_gaps.1 twoNibbles (by decide)).1,
    (renderDetail_reserved_gaps.1 twoNibbles (by decide)).2.2.2.2.1⟩

theorem mem_layoutFields_of_mem (fs : List Field) (f : Field) (hf : f ∈ fs) :
    ∃ b ∈ (layoutFields fs).viz, b.field = some f := by
  have h1 : f ∈ (layoutFields fs).viz.filterMap BitBlock.field := by
    rw [layoutFields_fields]
    exact (sortFields_perm fs).mem_iff.2 hf
  obtain ⟨b, hb, hbf⟩ := List.mem_filterMap.1 h1
  exact ⟨b, hb, hbf⟩

/-- C3, refuted as stated: for the single field `{bitOffset: 30, bitWidth: 4}`, which
exceeds the word, `renderDetail` does not fail: it draws the field as the block
`[33..30]` of width 4, followed by the reserved block `[27..0]`. -/
theorem renderDetail_outOfRange_draws :
    (∃ f ∈ regFields outOfRange, f.bitOffset + f.bitWidth > 32) ∧
    (renderDetail outOfRange).viz =
      [{ field := some ⟨ofAscii "F", 30, 4⟩, width := 4, startBit := 33, lowBit := 30,
         colorClass := some 0, text := ofAscii "F" },
       { field := none, width := 28, startBit := 27, lowBit := 0, colorClass := none,
         text := [] }] := by
  decide

/-- C3, amended: an out-of-range field is not rejected. For every register and every
field of it with `bitOffset + bitWidth > 32`, `renderDetail` emits a field block for
that field, of the full width `bitWidth`, covering
`[bitOffset + bitWidth - 1 .. bitOffset]`, hence reaching beyond bit 31. -/
theorem renderDetail_outOfRange_block (reg : Register) (f : Field) (hf : f ∈ regFields reg)
    (hout : f.bitOffset + f.bitWidth > 32) :
    ∃ b ∈ (renderDetail reg).viz, b.field = some f ∧ b.width = f.bitWidth ∧
      b.startBit = f.bitOffset + f.bitWidth - 1 ∧ b.lowBit = f.bitOffset ∧ 31 < b.startBit := by
  obtain ⟨b, hb, hbf⟩ := mem_layoutFields_of_mem (regFields reg) f hf
  have hb1 : b ∈ emitted 31 0 (sortFields (regFields reg)) ++
      trailing (finalBit 31 (sortFields (regFields reg))) := by
    rw [← layoutFields_viz]; exact hb
  obtain ⟨h1, h2, h3⟩ := emitted_field_block _ _ _ _ b hb1 f hbf
  unfold getMsb at h2
  exact ⟨b, hb, hbf, h1, h2, h3, by omega⟩

/-- Witness of C3 as amended: the register with the field `{30, 4}`. -/
theorem renderDetail_outOfRange_block_witness :
    (⟨ofAscii "F", 30, 4⟩ : Field) ∈ regFields outOfRange ∧
    ((⟨ofAscii "F", 30, 4⟩ : Field).bitOffset + (⟨ofAscii "F", 30, 4⟩ : Field).bitWidth > 32) ∧
    ∃ b ∈ (renderDetail outOfRange).viz, b.field = some ⟨ofAscii "F", 30, 4⟩ ∧
      b.width = (⟨ofAscii "F", 30, 4⟩ : Field).bitWidth ∧
      b.startBit = (⟨ofAscii "F", 30, 4⟩ : Field).bitOffset +
        (⟨ofAscii "F", 30, 4⟩ : Field).bitWidth - 1 ∧
      b.lowBit = (⟨ofAscii "F", 30, 4⟩ : Field).bitOffset ∧ 31 < b.startBit :=
  ⟨by decide, by decide,
    renderDetail_outOfRange_block outOfRange ⟨ofAscii "F", 30, 4⟩ (by decide) (by decide)⟩

/-- C9. Field-detail rows: for every register with fields the table holds one row
per field, in the order of the field blocks of the diagram, which is descending MSB
order; the label of the row of a field is the decimal `MSB` alone when
`MSB = bitOffset`, which is the case exactly when `bitWidth = 1`, and `MSB:LSB`
otherwise, with `MSB = bitOffset + bitWidth - 1` and `LSB = bitOffset`. A register
without fields gets the placeholder row instead. -/
theorem renderDetail_field_rows (reg : Register) :
    (renderDetail reg).table =
      (if regFields reg = [] then FieldTable.noBitfields
       else FieldTable.rows (((renderDetail reg).viz.filterMap BitBlock.field).map fieldRow)) ∧
    (renderDetail reg).viz.filterMap BitBlock.field = sortFields (regFields reg) ∧
    (sortFields (regFields reg)).Perm (regFields reg) ∧
    (sortFields (regFields reg)).Pairwise (fun f g => getMsb g ≤ getMsb f) ∧
    (∀ f : Field, (fieldRow f).name = f.name ∧
      (getMsb f = f.bitOffset ↔ f.bitWidth = 1) ∧
      (fieldRow f).range =
        (if f.bitWidth = 1 then numToStr (f.bitOffset + f.bitWidth - 1)
         else numToStr (f.bitOffset + f.bitWidth - 1) ++ ofAscii ":" ++ numToStr f.bitOffset)) ∧
    (fieldRow ⟨ofAscii "EN", 7, 1⟩).range = ofAscii "7" ∧
    (fieldRow ⟨ofAscii "DIV", 8, 4⟩).range = ofAscii "11:8" := by
  refine ⟨?_, layoutFields_fields _, sortFields_perm _, ?_, ?_, by decide, by decide⟩
  · show (layoutFields (regFields reg)).table = _
    rw [show (renderDetail reg).viz = (layoutFields (regFields reg)).viz from rfl,
      layoutFields_fields]
    simp only [layoutFields]
    have hlen : (sortFields (regFields reg)).length = (regFields reg).length :=
      (sortFields_perm _).length_eq
    by_cases he : regFields reg = []
    · simp [he, sortFields]
    · have : (sortFields (regFields reg)).length ≠ 0 := by
        rw [hlen]; exact fun h0 => he (List.length_eq_zero.1 h0)
      simp [he, this]
  · refine (sortFields_sorted (regFields reg)).imp ?_
    intro f g hfg
    unfold msbOrder at hfg
    omega
  · intro f
    have hiff : getMsb f = f.bitOffset ↔ f.bitWidth = 1 := by
      unfold getMsb; constructor <;> intro h <;> omega
    refine ⟨rfl, hiff, ?_⟩
    by_cases h1 : f.bitWidth = 1
    · simp only [fieldRow, rangeLabel]
      rw [if_pos (hiff.2 h1), if_pos h1]
      rfl
    · simp only [fieldRow, rangeLabel]
      rw [if_neg (fun h => h1 (hiff.1 h)), if_neg h1]
      rfl

theorem stacked_sortFields (fs : List Field)
    (hw : ∀ f ∈ fs, 1 ≤ f.bitWidth ∧ f.bitOffset + f.bitWidth ≤ 32)
    (hno : fs.Pairwise NonOverlapping) : Stacked 31 (sortFields fs) := by
  have hs := sortFields_stacked fs (fun f hf => (hw f hf).1) hno
  have hb : ∀ f ∈ sortFields fs, getMsb f ≤ 31 := by
    intro f hf
    have := hw f ((sortFields_perm fs).subset hf)
    unfold getMsb
    omega
  generalize sortFields fs = s at hs hb
  generalize (31 : Int) = cur at hb
  induction s generalizing cur with
  | nil => trivial
  | cons f rest ih =>
    rw [List.pairwise_cons] at hs
    refine ⟨hb f (List.mem_cons_self _ _), ih hs.2 _ ?_⟩
    intro g hg
    have := hs.1 g hg
    unfold getMsb
    omega

theorem emitted_segments (s : List Field) (cur : Int) (i : Nat) (h : Stacked cur s) :
    (emitted cur i s ++ trailing (finalBit cur s)).map BitBlock.segment = specLayoutLoop cur s := by
  induction s generalizing cur i with
  | nil =>
    simp only [emitted, finalBit, trailing, specLayoutLoop, List.nil_append]
    split_ifs
    · simp only [List.map_cons, List.map_nil, BitBlock.segment, createBitBlock]
      congr 2
      omega
    · rfl
  | cons f rest ih =>
    obtain ⟨h1, h2⟩ := h
    simp only [emitted, finalBit, nextBit_of_le h1, specLayoutLoop, gapBlocks,
      List.append_assoc, List.cons_append, List.map_append, List.map_cons]
    rw [← List.map_append, ih _ _ h2]
    have hg : getMsb f = f.bitOffset + f.bitWidth - 1 := rfl
    have hfb : (createBitBlock (some f) f.bitWidth (getMsb f) i).segment =
        { field := some f, msb := f.bitOffset + f.bitWidth - 1, lsb := f.bitOffset } := by
      simp only [BitBlock.segment, createBitBlock, getMsb]
      congr 1
      omega
    rw [hfb, ← hg]
    by_cases hc : cur > getMsb f
    · rw [if_pos hc, if_pos hc]
      simp only [List.map_cons, List.map_nil, BitBlock.segment, createBitBlock]
      congr 3
      omega
    · rw [if_neg hc, if_neg hc]
      rfl

/-- C10, refuted as stated: for the overlapping fields `{8, 8}` and `{4, 8}` the blocks
of `renderDetail` end with the field block `[11..4]`, while the algorithm of the
specification adds the reserved segment `[3..0]`. -/
theorem renderDetail_differs_on_overlap :
    (renderDetail overlapping).viz.map BitBlock.segment ≠ specLayout (regFields overlapping) ∧
    (renderDetail overlapping).viz.map BitBlock.segment =
      [⟨none, 31, 16⟩, ⟨some ⟨ofAscii "A", 8, 8⟩, 15, 8⟩, ⟨some ⟨ofAscii "B", 4, 8⟩, 11, 4⟩] ∧
    specLayout (regFields overlapping) =
      [⟨none, 31, 16⟩, ⟨some ⟨ofAscii "A", 8, 8⟩, 15, 8⟩, ⟨some ⟨ofAscii "B", 4, 8⟩, 11, 4⟩,
       ⟨none, 3, 0⟩] := by
  decide

/-- C10, amended: for every register whose fields are at least one bit wide, end at or
below bit 31 and are pairwise non-overlapping, the blocks `renderDetail` emits are, as
segments, the sequence the algorithm of section 4.2 of the specification produces. -/
theorem renderDetail_eq_specLayout (reg : Register)
    (hw : ∀ f ∈ regFields reg, 1 ≤ f.bitWidth ∧ f.bitOffset + f.bitWidth ≤ 32)
    (hno : (regFields reg).Pairwise NonOverlapping) :
    (renderDetail reg).viz.map BitBlock.segment = specLayout (regFields reg) := by
  show (layoutFields (regFields reg)).viz.map BitBlock.segment = _
  rw [layoutFields_viz]
  exact emitted_segments _ _ _ (stacked_sortFields _ hw hno)

/-- Witness of C10 as amended: the register with the fields `{0, 4}` and `{8, 4}`. -/
theorem renderDetail_eq_specLayout_witness :
    (∀ f ∈ regFields twoNibbles, 1 ≤ f.bitWidth ∧ f.bitOffset + f.bitWidth ≤ 32) ∧
    (regFields twoNibbles).Pairwise NonOverlapping ∧
    (renderDetail twoNibbles).viz.map BitBlock.segment = specLayout (regFields twoNibbles) :=
  ⟨by decide, by decide, renderDetail_eq_specLayout twoNibbles (by decide) (by decide)⟩

/-! ## Properties of the string operations -/

theorem strLt_irrefl (a : Str) : strLt a a = false := by
  induction a with
  | nil => rfl
  | cons x xs ih => simp [strLt, ih]

theorem strLt_asymm (a b : Str) (h : strLt a b = true) : strLt b a = false := by
  induction a generalizing b with
  | nil => cases b <;> simp [strLt] at h ⊢
  | cons x xs ih =>
    cases b with
    | nil => simp [strLt] at h
    | cons y ys =>
      simp only [strLt, Bool.or_eq_true, decide_eq_true_eq, Bool.and_eq_true, beq_iff_eq] at h
      simp only [strLt, Bool.or_eq_false_iff, decide_eq_false_iff_not, Bool.and_eq_false_imp,
        beq_iff_eq]
      rcases h with h | ⟨h1, h2⟩
      · exact ⟨by omega, fun e => by omega⟩
      · exact ⟨by omega, fun _ => ih ys h2⟩

theorem strLt_trans (a b c : Str) (h1 : strLt a b = true) (h2 : strLt b c = true) :
    strLt a c = true := by
  induction a generalizing b c with
  | nil =>
    cases c with
    | nil => cases b <;> simp [strLt] at h2
    | cons z zs => rfl
  | cons x xs ih =>
    cases b with
    | nil => simp [strLt] at h1
    | cons y ys =>
      cases c with
      | nil => simp [strLt] at h2
      | cons z zs =>
        simp only [strLt, Bool.or_eq_true, decide_eq_true_eq, Bool.and_eq_true, beq_iff_eq]
          at h1 h2 ⊢
        rcases h1 with h1 | ⟨e1, h1⟩ <;> rcases h2 with h2 | ⟨e2, h2⟩
        · left; omega
        · left; omega
        · left; omega
        · right; exact ⟨by omega, ih ys zs h1 h2⟩

theorem strLt_connex (a b : Str) (h1 : strLt a b = false) (h2 : strLt b a = false) : a = b := by
  induction a generalizing b with
  | nil => cases b <;> simp [strLt] at h1 ⊢
  | cons x xs ih =>
    cases b with
    | nil => simp [strLt] at h2
    | cons y ys =>
      simp only [strLt, Bool.or_eq_false_iff, decide_eq_false_iff_not, Bool.and_eq_false_imp,
        beq_iff_eq] at h1 h2
      have hxy : x = y := by omega
      subst hxy
      rw [ih ys (h1.2 rfl) (h2.2 rfl)]

theorem strLe_total : IsTotal Str strLe :=
  ⟨fun a b => by
    unfold strLe
    cases h : strLt b a
    · exact Or.inl rfl
    · exact Or.inr (strLt_asymm b a h)⟩

theorem strLe_trans : IsTrans Str strLe :=
  ⟨fun a b c h1 h2 => by
    unfold strLe at *
    cases h : strLt c a
    · rfl
    · exfalso
      cases hcb : strLt b c
      · have hbc : b = c := strLt_connex b c hcb h2
        subst hbc
        rw [h] at h1
        exact Bool.noConfusion h1
      · cases hab : strLt a b
        · have he : a = b := strLt_connex a b hab h1
          subst he
          rw [h] at h2
          exact Bool.noConfusion h2
        · have hac := strLt_trans a b c hab hcb
          rw [strLt_asymm a c hac] at h
          exact Bool.noConfusion h⟩

theorem sortNames_perm (names : List Str) : (sortNames names).Perm names :=
  List.perm_insertionSort _ names

theorem sortNames_sorted (names : List Str) : (sortNames names).Pairwise strLe :=
  haveI := strLe_total
  haveI := strLe_trans
  List.sorted_insertionSort _ names

/-- Sorting distinct names puts them in strictly ascending code-unit order. -/
theorem sortNames_strict (names : List Str) (h : names.Nodup) :
    (sortNames names).Pairwise (fun a b => strLt a b = true) := by
  have hnd : (sortNames names).Nodup := (sortNames_perm names).nodup_iff.2 h
  refine ((sortNames_sorted names).and hnd).imp ?_
  intro a b hab
  rcases hab with ⟨hle, hne⟩
  unfold strLe at hle
  cases hlt : strLt a b
  · exact absurd (strLt_connex a b hlt hle) hne
  · rfl

theorem objectKeys_perm (o : GroupIndex) : (objectKeys o).Perm (o.map Prod.fst) := by
  unfold objectKeys
  exact ((List.perm_insertionSort _ _).append_right _).trans (List.filter_append_perm _ _)

theorem includes_iff (s p : Str) : includes s p = true ↔ p <:+: s := by
  induction s with
  | nil => simp [includes, List.isEmpty_iff]
  | cons c s ih =>
    simp only [includes, Bool.or_eq_true, ih, List.infix_cons_iff, List.isPrefixOf_iff_prefix]

theorem matchesPatterns_iff (upper : Str → Str) (patterns : List Str) (gName : Str) :
    matchesPatterns upper patterns gName = true ↔
      ∃ p ∈ patterns, upper p <:+: upper gName := by
  simp only [matchesPatterns, List.any_eq_true, Bool.or_eq_true, includes_iff, beq_iff_eq]
  constructor
  · rintro ⟨p, hp, h | h⟩
    · exact ⟨p, hp, h⟩
    · exact ⟨p, hp, h ▸ List.infix_refl _⟩
  · rintro ⟨p, hp, h⟩
    exact ⟨p, hp, Or.inl h⟩

/-! ## Properties of the group index -/

theorem lookup_isSome_iff (o : GroupIndex) (k : Str) :
    (o.lookup k).isSome = true ↔ k ∈ o.map Prod.fst := by
  induction o with
  | nil => simp
  | cons kv rest ih =>
    obtain ⟨k1, v1⟩ := kv
    by_cases hk : k = k1
    · subst hk; simp [List.lookup]
    · have hb : (k == k1) = false := by simpa using hk
      simp only [List.lookup, hb, ih, List.map_cons, List.mem_cons, hk, false_or]

theorem setOwn_keys (o : GroupIndex) (k : Str) (v : List Peripheral) :
    (setOwn o k v).map Prod.fst = o.map Prod.fst := by
  unfold setOwn
  rw [List.map_map]
  refine List.map_congr_left ?_
  intro kv _
  simp only [Function.comp]
  split_ifs <;> rfl

theorem lookup_setOwn (o : GroupIndex) (k : Str) (v : List Peripheral)
    (h : k ∈ o.map Prod.fst) : (setOwn o k v).lookup k = some v := by
  induction o with
  | nil => simp at h
  | cons kv rest ih =>
    obtain ⟨k1, v1⟩ := kv
    by_cases hk : k1 = k
    · subst hk
      have e : setOwn ((k1, v1) :: rest) k1 v = (k1, v) :: setOwn rest k1 v := by
        unfold setOwn
        rw [List.map_cons, if_pos rfl]
      rw [e]
      simp [List.lookup]
    · have hb : (k == k1) = false := by simpa using fun e => hk e.symm
      have hmem : k ∈ rest.map Prod.fst := by
        simp only [List.map_cons, List.mem_cons] at h
        rcases h with h | h
        · exact absurd h.symm hk
        · exact h
      have e : setOwn ((k1, v1) :: rest) k v = (k1, v1) :: setOwn rest k v := by
        unfold setOwn
        rw [List.map_cons, if_neg hk]
      rw [e]
      simp only [List.lookup, hb]
      exact ih hmem

/-- One iteration of `processData` on a name that `Object.prototype` does not define:
the name becomes (or stays) a key, the keys stay distinct. -/
theorem addPeripheral_ok (groups : GroupIndex) (periph : Peripheral)
    (hsafe : groups.lookup (groupNameOf periph) = none →
      groupNameOf periph ∉ objectPrototypeKeys)
    (hnd : (groups.map Prod.fst).Nodup) :
    ∃ groups1, addPeripheral groups periph = Except.ok groups1 ∧
      (groups1.map Prod.fst).Nodup ∧
      ∀ g, g ∈ groups1.map Prod.fst ↔ g ∈ groups.map Prod.fst ∨ g = groupNameOf periph := by
  unfold addPeripheral
  cases hl : groups.lookup (groupNameOf periph) with
  | some a =>
    have hmem : groupNameOf periph ∈ groups.map Prod.fst := by
      rw [← lookup_isSome_iff, hl]; rfl
    simp only [getProp, hl]
    refine ⟨_, rfl, ?_, ?_⟩
    · rw [setOwn_keys]; exact hnd
    · intro g
      rw [setOwn_keys]
      constructor
      · exact Or.inl
      · rintro (h | h)
        · exact h
        · exact h ▸ hmem
  | none =>
    have hnot : groupNameOf periph ∉ groups.map Prod.fst := by
      rw [← lookup_isSome_iff, hl]; simp
    have hmem1 : groupNameOf periph ∈ (groups ++ [(groupNameOf periph, [])]).map Prod.fst := by
      simp
    have hl1 := lookup_isSome_iff (groups ++ [(groupNameOf periph, [])]) (groupNameOf periph)
    cases hl2 : (groups ++ [(groupNameOf periph, [])]).lookup (groupNameOf periph) with
    | none => rw [hl2] at hl1; exact absurd (hl1.2 hmem1) (by simp)
    | some a =>
      simp only [getProp, hl, if_neg (hsafe hl), hl2]
      refine ⟨_, rfl, ?_, ?_⟩
      · rw [setOwn_keys, List.map_append, List.map_cons, List.map_nil]
        exact List.Nodup.append hnd (List.nodup_singleton _)
          (List.disjoint_singleton.2 hnot)
      · intro g
        rw [setOwn_keys]
        simp

theorem buildGroups_ok (data : List Peripheral) (groups : GroupIndex)
    (hsafe : ∀ p ∈ data, groupNameOf p ∉ objectPrototypeKeys)
    (hnd : (groups.map Prod.fst).Nodup) :
    ∃ groups1, buildGroups data groups = Except.ok groups1 ∧
      (groups1.map Prod.fst).Nodup ∧
      ∀ g, g ∈ groups1.map Prod.fst ↔ g ∈ groups.map Prod.fst ∨ g ∈ data.map groupNameOf := by
  induction data generalizing groups with
  | nil => exact ⟨groups, rfl, hnd, by simp⟩
  | cons p rest ih =>
    obtain ⟨g1, h1, h2, h3⟩ :=
      addPeripheral_ok groups p (fun _ => hsafe p (List.mem_cons_self _ _)) hnd
    obtain ⟨g2, k1, k2, k3⟩ := ih g1 (fun q hq => hsafe q (List.mem_cons_of_mem _ hq)) h2
    refine ⟨g2, ?_, k2, ?_⟩
    · simp only [buildGroups, h1, k1]
    · intro g
      rw [k3, h3]
      simp only [List.map_cons, List.mem_cons]
      tauto

/-- On a dataset none of whose group names is defined by `Object.prototype`,
`processData` succeeds and `sortedGroupNames` lists the distinct group names of the
dataset in strictly ascending code-unit order. -/
theorem processData_ok (data : List Peripheral)
    (hsafe : ∀ p ∈ data, groupNameOf p ∉ objectPrototypeKeys) :
    ∃ st, processData data = Except.ok st ∧
      st.sortedGroupNames.Pairwise (fun a b => strLt a b = true) ∧
      st.sortedGroupNames.Nodup ∧
      (∀ g, g ∈ st.sortedGroupNames ↔ g ∈ data.map groupNameOf) ∧
      (∀ g ∈ st.sortedGroupNames, ∃ a, getProp st.groups g = PropValue.array a) := by
  obtain ⟨groups, h1, h2, h3⟩ := buildGroups_ok data [] hsafe (by simp)
  have hk : (objectKeys groups).Nodup := (objectKeys_perm groups).nodup_iff.2 h2
  have hmem : ∀ g, g ∈ sortNames (objectKeys groups) ↔ g ∈ groups.map Prod.fst := fun g =>
    (sortNames_perm _).mem_iff.trans (objectKeys_perm groups).mem_iff
  refine ⟨⟨groups, sortNames (objectKeys groups)⟩, ?_, sortNames_strict _ hk,
    (sortNames_perm _).nodup_iff.2 hk, ?_, ?_⟩
  · simp only [processData, h1]
  · intro g
    rw [hmem, h3]
    simp
  · intro g hg
    have hg1 := (hmem g).1 hg
    have hs := (lookup_isSome_iff groups g).2 hg1
    cases hl : groups.lookup g with
    | none => rw [hl] at hs; exact absurd hs (by simp)
    | some a => exact ⟨a, by simp only [getProp, hl]⟩

/-- A group name that `Object.prototype` defines and that is not yet a key makes the
iteration throw: the inherited value is truthy and has no `push`. -/
theorem addPeripheral_error (groups : GroupIndex) (periph : Peripheral)
    (hl : groups.lookup (groupNameOf periph) = none)
    (hproto : groupNameOf periph ∈ objectPrototypeKeys) :
    addPeripheral groups periph = Except.error JsError.typeError := by
  simp only [addPeripheral, getProp, hl, if_pos hproto]

theorem buildGroups_nodup (data : List Peripheral) (groups groups1 : GroupIndex)
    (h : buildGroups data groups = Except.ok groups1) (hnd : (groups.map Prod.fst).Nodup) :
    (groups1.map Prod.fst).Nodup ∧
      ∀ g, g ∈ groups1.map Prod.fst ↔ g ∈ groups.map Prod.fst ∨ g ∈ data.map groupNameOf := by
  induction data generalizing groups with
  | nil =>
    simp only [buildGroups, Except.ok.injEq] at h
    subst h
    exact ⟨hnd, by simp⟩
  | cons p rest ih =>
    by_cases hs : groups.lookup (groupNameOf p) = none → groupNameOf p ∉ objectPrototypeKeys
    · obtain ⟨g1, h1, h2, h3⟩ := addPeripheral_ok groups p hs hnd
      simp only [buildGroups, h1] at h
      obtain ⟨k1, k2⟩ := ih g1 h h2
      refine ⟨k1, ?_⟩
      intro g
      rw [k2, h3]
      simp only [List.map_cons, List.mem_cons]
      tauto
    · have hl : groups.lookup (groupNameOf p) = none := by
        by_contra hc; exact hs (fun e => absurd e hc)
      have hp : groupNameOf p ∈ objectPrototypeKeys := by
        by_contra hc; exact hs (fun _ => hc)
      simp [buildGroups, addPeripheral_error groups p hl hp] at h

/-- Whenever `processData` returns, `sortedGroupNames` lists the distinct group names
of the dataset, free of duplicates and strictly ascending in code-unit order. -/
theorem processData_sorted (data : List Peripheral) (st : AppState)
    (h : processData data = Except.ok st) :
    st.sortedGroupNames.Nodup ∧ st.sortedGroupNames.Pairwise (fun a b => strLt a b = true) ∧
      ∀ g, g ∈ st.sortedGroupNames ↔ g ∈ data.map groupNameOf := by
  unfold processData at h
  cases hb : buildGroups data [] with
  | error e => simp [hb] at h
  | ok groups =>
    simp only [hb, Except.ok.injEq] at h
    subst h
    obtain ⟨h2, h3⟩ := buildGroups_nodup data [] groups hb (by simp)
    have hk : (objectKeys groups).Nodup := (objectKeys_perm groups).nodup_iff.2 h2
    refine ⟨(sortNames_perm _).nodup_iff.2 hk, sortNames_strict _ hk, ?_⟩
    intro g
    show g ∈ sortNames (objectKeys groups) ↔ _
    rw [(sortNames_perm _).mem_iff, (objectKeys_perm groups).mem_iff, h3]
    simp

/-! ## Properties of the dashboard -/

theorem scan_eq (upper : Str → Str) (st : AppState) (patterns : List Str) (names : List Str)
    (s : ScanState) :
    names.foldl (scanStep upper st patterns) s =
      { mGrid := s.mGrid ++ (pick upper patterns s.usedGroups names).map (cardOf st),
        usedGroups := s.usedGroups ++ pick upper patterns s.usedGroups names,
        hasItems := s.hasItems || !(pick upper patterns s.usedGroups names).isEmpty } := by
  induction names generalizing s with
  | nil => simp [pick]
  | cons g ns ih =>
    rw [List.foldl_cons, ih]
    by_cases hc : (matchesPatterns upper patterns g && !(s.usedGroups.contains g)) = true
    · simp only [scanStep, pick, hc, if_true, createModuleCard]
      simp [cardOf]
    · simp only [scanStep, pick, hc]
      simp

theorem categories_eq (upper : Str → Str) (st : AppState) (cats : List (Str × List Str))
    (grid : List Section) (used : List Str) :
    cats.foldl (categoryStep upper st) (grid, used) =
      (grid ++ sectionsFrom upper st used cats, usedAfter upper st used cats) := by
  induction cats generalizing grid used with
  | nil => simp [sectionsFrom, usedAfter]
  | cons cat rest ih =>
    rw [List.foldl_cons]
    have hstep : categoryStep upper st (grid, used) cat =
        (grid ++ (if (pick upper cat.2 used st.sortedGroupNames).isEmpty then []
          else [{ title := cat.1,
                  mGrid := (pick upper cat.2 used st.sortedGroupNames).map (cardOf st) }]),
         used ++ pick upper cat.2 used st.sortedGroupNames) := by
      simp only [categoryStep, scan_eq, List.nil_append, Bool.false_or]
      cases (pick upper cat.2 used st.sortedGroupNames).isEmpty <;> simp
    rw [hstep, ih]
    simp [sectionsFrom, usedAfter]

theorem fallback_eq (st : AppState) (used : List Str) (names : List Str)
    (acc : List ModuleCard) :
    names.foldl (fun fb gName => if !(used.contains gName) then createModuleCard st gName fb
      else fb) acc =
      acc ++ (names.filter fun g => !(used.contains g)).map (cardOf st) := by
  induction names generalizing acc with
  | nil => simp
  | cons g ns ih =>
    rw [List.foldl_cons, ih]
    by_cases hu : g ∈ used
    · simp [hu, List.filter_cons]
    · simp [hu, createModuleCard, cardOf, List.filter_cons]

theorem renderDashboard_eq (upper : Str → Str) (cats : List (Str × List Str)) (st : AppState) :
    renderDashboard upper cats st =
      { grid := sectionsFrom upper st [] cats,
        fallbackGrid := (st.sortedGroupNames.filter fun g =>
          !((usedAfter upper st [] cats).contains g)).map (cardOf st) } := by
  simp only [renderDashboard, categories_eq, fallback_eq, List.nil_append]

theorem pick_sublist (upper : Str → Str) (patterns : List Str) (used names : List Str) :
    (pick upper patterns used names).Sublist names := by
  induction names generalizing used with
  | nil => exact List.Sublist.slnil
  | cons g ns ih =>
    simp only [pick]
    split_ifs
    · exact (ih _).cons₂ g
    · exact (ih _).cons g

theorem mem_pick (upper : Str → Str) (patterns : List Str) (used names : List Str) (g : Str) :
    g ∈ pick upper patterns used names ↔
      g ∈ names ∧ matchesPatterns upper patterns g = true ∧ g ∉ used := by
  induction names generalizing used with
  | nil => simp [pick]
  | cons g0 ns ih =>
    simp only [pick]
    by_cases hc : (matchesPatterns upper patterns g0 && !(used.contains g0)) = true
    · rw [if_pos hc]
      have hc1 : matchesPatterns upper patterns g0 = true ∧ g0 ∉ used := by simpa using hc
      rw [List.mem_cons, ih, List.mem_cons]
      constructor
      · rintro (h | ⟨h1, h2, h3⟩)
        · subst h; exact ⟨Or.inl rfl, hc1.1, hc1.2⟩
        · exact ⟨Or.inr h1, h2, fun hu => h3 (List.mem_append_left _ hu)⟩
      · rintro ⟨h1, h2, h3⟩
        by_cases he : g = g0
        · exact Or.inl he
        · rcases h1 with h1 | h1
          · exact absurd h1 he
          · refine Or.inr ⟨h1, h2, ?_⟩
            intro hu
            rcases List.mem_append.1 hu with hu | hu
            · exact h3 hu
            · exact he (List.mem_singleton.1 hu)
    · rw [if_neg hc]
      have hc1 : matchesPatterns upper patterns g0 = true → g0 ∈ used := by simpa using hc
      rw [ih, List.mem_cons]
      constructor
      · rintro ⟨h1, h2, h3⟩
        exact ⟨Or.inr h1, h2, h3⟩
      · rintro ⟨h1 | h1, h2, h3⟩
        · subst h1; exact absurd (hc1 h2) h3
        · exact ⟨h1, h2, h3⟩

theorem pick_eq_filter (upper : Str → Str) (patterns : List Str) (used names : List Str)
    (hnd : names.Nodup) :
    pick upper patterns used names =
      names.filter fun g => matchesPatterns upper patterns g && !(used.contains g) := by
  induction names generalizing used with
  | nil => rfl
  | cons g0 ns ih =>
    rw [List.nodup_cons] at hnd
    simp only [pick, List.filter_cons]
    split_ifs with hc
    · rw [ih _ hnd.2]
      congr 1
      refine List.filter_congr ?_
      intro x hx
      have hne : x ≠ g0 := fun e => hnd.1 (e ▸ hx)
      simp [hne]
    · exact ih _ hnd.2

theorem sectionNames_cons_pick (upper : Str → Str) (st : AppState) (used : List Str)
    (cat : Str × List Str) (rest : List (Str × List Str)) :
    sectionNames (sectionsFrom upper st used (cat :: rest)) =
      pick upper cat.2 used st.sortedGroupNames ++
        sectionNames (sectionsFrom upper st
          (used ++ pick upper cat.2 used st.sortedGroupNames) rest) := by
  simp only [sectionsFrom, sectionNames, List.map_append, List.flatten_append]
  congr 1
  cases hp : pick upper cat.2 used st.sortedGroupNames with
  | nil => simp
  | cons a l => simp [cardOf, Function.comp_def]

/-- The cards of the sections, followed by the cards of the fallback grid, name every
unused group name exactly once. -/
theorem cards_perm (upper : Str → Str) (st : AppState) (hnd : st.sortedGroupNames.Nodup)
    (cats : List (Str × List Str)) (used : List Str) :
    (sectionNames (sectionsFrom upper st used cats) ++
      st.sortedGroupNames.filter fun g => !((usedAfter upper st used cats).contains g)).Perm
      (st.sortedGroupNames.filter fun g => !(used.contains g)) := by
  induction cats generalizing used with
  | nil => simp [sectionsFrom, sectionNames, usedAfter]
  | cons cat rest ih =>
    rw [sectionNames_cons_pick, List.append_assoc]
    simp only [usedAfter]
    refine ((ih _).append_left _).trans ?_
    rw [pick_eq_filter upper cat.2 used _ hnd]
    have h1 : (st.sortedGroupNames.filter fun g =>
        matchesPatterns upper cat.2 g && !(used.contains g)) =
        (st.sortedGroupNames.filter fun g => !(used.contains g)).filter
          (fun g => matchesPatterns upper cat.2 g) := by
      rw [List.filter_filter]
    have h2 : (st.sortedGroupNames.filter fun g =>
        !((used ++ st.sortedGroupNames.filter fun g =>
          matchesPatterns upper cat.2 g && !(used.contains g)).contains g)) =
        (st.sortedGroupNames.filter fun g => !(used.contains g)).filter
          (fun g => !(matchesPatterns upper cat.2 g)) := by
      rw [List.filter_filter]
      refine List.filter_congr ?_
      intro x hx
      by_cases hu : x ∈ used <;> by_cases hm : matchesPatterns upper cat.2 x = true <;>
        simp [hu, hm, hx]
    rw [h2, h1]
    exact List.filter_append_perm _ _

theorem cardNames_perm (upper : Str → Str) (cats : List (Str × List Str)) (st : AppState)
    (hnd : st.sortedGroupNames.Nodup) :
    (cardNames (renderDashboard upper cats st)).Perm st.sortedGroupNames := by
  have h := cards_perm upper st hnd cats []
  simp only [List.contains_nil, Bool.not_false, List.filter_true] at h
  rw [renderDashboard_eq]
  simp only [cardNames, List.map_map]
  have hid : (ModuleCard.gName ∘ cardOf st) = id := rfl
  rw [hid, List.map_id]
  exact h

/-- Totality of the classifier on the datasets `processData` accepts: when no group
name of the dataset is a name `Object.prototype` defines, `processData` returns and
the cards of the dashboard, over all category sections and the fallback grid, name
every distinct group name of the dataset exactly once. -/
theorem classifier_total_of_safe (upper : Str → Str) (cats : List (Str × List Str))
    (data : List Peripheral) (hsafe : ∀ p ∈ data, groupNameOf p ∉ objectPrototypeKeys) :
    ∃ st, processData data = Except.ok st ∧
      init upper cats (some data) = Except.ok (some (st, renderDashboard upper cats st)) ∧
      (cardNames (renderDashboard upper cats st)).Nodup ∧
      (∀ g, g ∈ cardNames (renderDashboard upper cats st) ↔ g ∈ data.map groupNameOf) ∧
      (cardNames (renderDashboard upper cats st)).length = (data.map groupNameOf).dedup.length := by
  obtain ⟨st, h1, _, h3, h4, _⟩ := processData_ok data hsafe
  have hp := cardNames_perm upper cats st h3
  refine ⟨st, h1, by simp only [init, h1], hp.nodup_iff.2 h3,
    fun g => hp.mem_iff.trans (h4 g), ?_⟩
  rw [hp.length_eq]
  refine List.Perm.length_eq ?_
  refine (List.perm_ext_iff_of_nodup h3 (List.nodup_dedup _)).2 ?_
  intro g
  rw [h4, List.mem_dedup]

/-- C4, the failing dataset: one peripheral whose group is named `constructor`.
`this.groups["constructor"]` reads the function inherited from `Object.prototype`,
which is truthy, so no array is created and `push` is not a function: `processData`
throws, `init` never reaches `renderDashboard` and the one distinct group name of the
dataset gets no card. -/
theorem processData_throws_on_constructor :
    (constructorData.map groupNameOf).dedup = [ofAscii "constructor"] ∧
    getProp [] (ofAscii "constructor") = PropValue.inherited ∧
    processData constructorData = Except.error JsError.typeError ∧
    init asciiUpper P_CATEGORIES (some constructorData) = Except.error JsError.typeError := by
  decide

theorem mem_sectionsFrom (upper : Str → Str) (st : AppState) (cats : List (Str × List Str))
    (used : List Str) (catName g : Str) :
    (∃ sec ∈ sectionsFrom upper st used cats,
        sec.title = catName ∧ g ∈ sec.mGrid.map ModuleCard.gName) ↔
      g ∈ st.sortedGroupNames ∧ g ∉ used ∧
        ∃ pre pats post, cats = pre ++ (catName, pats) :: post ∧
          (∀ c ∈ pre, matchesPatterns upper c.2 g = false) ∧
          matchesPatterns upper pats g = true := by
  have hcards : ∀ l : List Str, (l.map (cardOf st)).map ModuleCard.gName = l := by
    intro l
    rw [List.map_map]
    exact List.map_id l
  induction cats generalizing used with
  | nil => simp [sectionsFrom]
  | cons cat rest ih =>
    obtain ⟨c0, p0⟩ := cat
    simp only [sectionsFrom, List.mem_append]
    constructor
    · rintro ⟨sec, hsec | hsec, ht, hg⟩
      · split_ifs at hsec with he
        · simp at hsec
        · rw [List.mem_singleton] at hsec
          subst hsec
          rw [hcards] at hg
          obtain ⟨h1, h2, h3⟩ := (mem_pick _ _ _ _ _).1 hg
          simp only at ht
          subst ht
          exact ⟨h1, h3, [], p0, rest, rfl, by simp, h2⟩
      · obtain ⟨h1, h2, pre, pats, post, h3, h4, h5⟩ := (ih _).1 ⟨sec, hsec, ht, hg⟩
        have hu : g ∉ used := fun hu => h2 (List.mem_append_left _ hu)
        have hp : g ∉ pick upper p0 used st.sortedGroupNames :=
          fun hp => h2 (List.mem_append_right _ hp)
        have hm : matchesPatterns upper p0 g = false := by
          cases hm : matchesPatterns upper p0 g
          · rfl
          · exact absurd ((mem_pick _ _ _ _ _).2 ⟨h1, hm, hu⟩) hp
        refine ⟨h1, hu, (c0, p0) :: pre, pats, post, by rw [h3]; rfl, ?_, h5⟩
        intro c hc
        rcases List.mem_cons.1 hc with rfl | hc
        · exact hm
        · exact h4 c hc
    · rintro ⟨h1, h2, pre, pats, post, h3, h4, h5⟩
      cases pre with
      | nil =>
        simp only [List.nil_append, List.cons.injEq, Prod.mk.injEq] at h3
        obtain ⟨⟨rfl, rfl⟩, rfl⟩ := h3
        have hg : g ∈ pick upper p0 used st.sortedGroupNames :=
          (mem_pick _ _ _ _ _).2 ⟨h1, h5, h2⟩
        have hne : (pick upper p0 used st.sortedGroupNames).isEmpty = false := by
          cases hp : pick upper p0 used st.sortedGroupNames with
          | nil => rw [hp] at hg; simp at hg
          | cons a l => rfl
        refine ⟨{ title := c0, mGrid := (pick upper p0 used st.sortedGroupNames).map (cardOf st) },
          Or.inl ?_, rfl, ?_⟩
        · simp [hne]
        · rw [hcards]; exact hg
      | cons c pre1 =>
        simp only [List.cons_append, List.cons.injEq] at h3
        obtain ⟨rfl, rfl⟩ := h3
        have hm := h4 _ (List.mem_cons_self _ _)
        have hp : g ∉ pick upper p0 used st.sortedGroupNames := by
          intro hp
          have := ((mem_pick _ _ _ _ _).1 hp).2.1
          simp only at hm
          rw [hm] at this
          exact Bool.noConfusion this
        have hu : g ∉ used ++ pick upper p0 used st.sortedGroupNames := by
          intro hu
          rcases List.mem_append.1 hu with hu | hu
          · exact h2 hu
          · exact hp hu
        obtain ⟨sec, hsec, ht, hg⟩ := (ih _).2
          ⟨h1, hu, pre1, pats, post, rfl, fun c hc => h4 c (List.mem_cons_of_mem _ hc), h5⟩
        exact ⟨sec, Or.inr hsec, ht, hg⟩

theorem placedUnder_iff (upper : Str → Str) (cats : List (Str × List Str)) (st : AppState)
    (catName g : Str) :
    PlacedUnder (renderDashboard upper cats st) catName g ↔
      g ∈ st.sortedGroupNames ∧ FirstMatching upper cats catName g := by
  unfold PlacedUnder FirstMatching
  rw [renderDashboard_eq]
  simp only
  rw [mem_sectionsFrom]
  have hfalse : ∀ pats : List Str, matchesPatterns upper pats g = false ↔
      ∀ p ∈ pats, ¬ upper p <:+: upper g := by
    intro pats
    rw [← Bool.not_eq_true, matchesPatterns_iff]
    simp
  constructor
  · rintro ⟨h1, _, pre, pats, post, h3, h4, h5⟩
    exact ⟨h1, pre, pats, post, h3, fun c hc => (hfalse c.2).1 (h4 c hc),
      (matchesPatterns_iff _ _ _).1 h5⟩
  · rintro ⟨h1, pre, pats, post, h3, h4, h5⟩
    exact ⟨h1, by simp, pre, pats, post, h3, fun c hc => (hfalse c.2).2 (h4 c hc),
      (matchesPatterns_iff _ _ _).2 h5⟩

/-- C5. Category precedence: for every state of `App`, category table and
`toUpperCase`, a group name gets its card under a section titled `C` if and only if
it is one of the sorted group names and the first entry of the table, in table order,
having a pattern that occurs case-insensitively in the group name is named `C`; so
for every dataset `processData` returns on, the group name of each peripheral is
placed under `C` if and only if `C` names that first entry. With the built-in table
the group `ADC_PIT`, which contains `ADC` of `Analog` and `PIT` of `Timers`, is placed
under `Analog` and not under `Timers`. -/
theorem renderDashboard_precedence :
    (∀ (upper : Str → Str) (cats : List (Str × List Str)) (st : AppState) (catName g : Str),
      PlacedUnder (renderDashboard upper cats st) catName g ↔
        g ∈ st.sortedGroupNames ∧ FirstMatching upper cats catName g) ∧
    (∀ (upper : Str → Str) (cats : List (Str × List Str)) (data : List Peripheral)
      (st : AppState), processData data = Except.ok st →
      ∀ p ∈ data, ∀ catName : Str,
        PlacedUnder (renderDashboard upper cats st) catName (groupNameOf p) ↔
          FirstMatching upper cats catName (groupNameOf p)) ∧
    processData adcPitData =
      Except.ok { groups := [(ofAscii "ADC_PIT", adcPitData)],
                  sortedGroupNames := [ofAscii "ADC_PIT"] } ∧
    renderDashboard asciiUpper P_CATEGORIES
        { groups := [(ofAscii "ADC_PIT", adcPitData)], sortedGroupNames := [ofAscii "ADC_PIT"] } =
      { grid := [{ title := ofAscii "Analog", mGrid := [{ gName := ofAscii "ADC_PIT", count := 1 }] }],
        fallbackGrid := [] } ∧
    asciiUpper (ofAscii "ADC") <:+: asciiUpper (ofAscii "ADC_PIT") ∧
    asciiUpper (ofAscii "PIT") <:+: asciiUpper (ofAscii "ADC_PIT") ∧
    P_CATEGORIES.lookup (ofAscii "Analog") =
      some (["ADC", "ADC_ETC", "CMP", "AOI", "XBARA", "XBARB", "ACMP"].map ofAscii) ∧
    P_CATEGORIES.lookup (ofAscii "Timers") =
      some (["GPT", "PIT", "TMR", "PWM", "ENC", "EWM", "WDOG", "RTWDOG"].map ofAscii) := by
  refine ⟨placedUnder_iff, ?_, by decide, by decide, (includes_iff _ _).1 (by decide),
    (includes_iff _ _).1 (by decide), by decide, by decide⟩
  intro upper cats data st h p hp catName
  rw [placedUnder_iff]
  have hmem : groupNameOf p ∈ st.sortedGroupNames :=
    ((processData_sorted data st h).2.2 _).2 (List.mem_map_of_mem _ hp)
  exact ⟨fun hx => hx.2, fun hx => ⟨hmem, hx⟩⟩

/-- Witness of C5: the dataset with the single group `ADC_PIT` and the built-in table;
the group is placed under `Analog`, the first entry with a matching pattern. -/
theorem renderDashboard_precedence_witness :
    processData adcPitData =
      Except.ok { groups := [(ofAscii "ADC_PIT", adcPitData)],
                  sortedGroupNames := [ofAscii "ADC_PIT"] } ∧
    (∀ p ∈ adcPitData, ∀ catName : Str,
      PlacedUnder (renderDashboard asciiUpper P_CATEGORIES
          { groups := [(ofAscii "ADC_PIT", adcPitData)],
            sortedGroupNames := [ofAscii "ADC_PIT"] }) catName (groupNameOf p) ↔
        FirstMatching asciiUpper P_CATEGORIES catName (groupNameOf p)) :=
  ⟨by decide,
    renderDashboard_precedence.2.1 asciiUpper P_CATEGORIES adcPitData
      { groups := [(ofAscii "ADC_PIT", adcPitData)], sortedGroupNames := [ofAscii "ADC_PIT"] }
      (by decide)⟩

theorem sectionsFrom_sublist (upper : Str → Str) (st : AppState) (cats : List (Str × List Str))
    (used : List Str) :
    ∀ sec ∈ sectionsFrom upper st used cats,
      (sec.mGrid.map ModuleCard.gName).Sublist st.sortedGroupNames := by
  induction cats generalizing used with
  | nil => simp [sectionsFrom]
  | cons cat rest ih =>
    intro sec hsec
    simp only [sectionsFrom, List.mem_append] at hsec
    rcases hsec with hsec | hsec
    · split_ifs at hsec
      · simp at hsec
      · rw [List.mem_singleton] at hsec
        subst hsec
        simp only [List.map_map]
        rw [show (ModuleCard.gName ∘ cardOf st) = id from rfl, List.map_id]
        exact pick_sublist _ _ _ _
    · exact ih _ sec hsec

theorem used_step (upper : Str → Str) (names used : List Str)
    (pre : List (Str × List Str)) (cat : Str × List Str)
    (hinv : ∀ g ∈ names, g ∈ used ↔ (pre.any fun c => matchesPatterns upper c.2 g) = true) :
    ∀ g ∈ names, g ∈ used ++ pick upper cat.2 used names ↔
      ((pre ++ [cat]).any fun c => matchesPatterns upper c.2 g) = true := by
  intro g hg
  rw [List.mem_append, mem_pick, List.any_append, Bool.or_eq_true, ← hinv g hg]
  simp only [List.any_cons, List.any_nil, Bool.or_false]
  constructor
  · rintro (h | ⟨_, h, _⟩)
    · exact Or.inl h
    · exact Or.inr h
  · rintro (h | h)
    · exact Or.inl h
    · by_cases hu : g ∈ used
      · exact Or.inl hu
      · exact Or.inr ⟨hg, h, hu⟩

theorem pick_eq_claimedNames (upper : Str → Str) (names used : List Str)
    (pre : List (Str × List Str)) (patterns : List Str) (hnd : names.Nodup)
    (hinv : ∀ g ∈ names, g ∈ used ↔ (pre.any fun c => matchesPatterns upper c.2 g) = true) :
    pick upper patterns used names = claimedNames upper names pre patterns := by
  rw [pick_eq_filter upper patterns used names hnd]
  unfold claimedNames
  refine List.filter_congr ?_
  intro g hg
  have h := hinv g hg
  by_cases hu : g ∈ used
  · have h1 := h.1 hu
    simp [hu, h1]
  · have h1 : (pre.any fun c => matchesPatterns upper c.2 g) = false := by
      cases hc : pre.any fun c => matchesPatterns upper c.2 g
      · rfl
      · exact absurd (h.2 hc) hu
    simp [hu, h1]

theorem sectionsFrom_eq_expected (upper : Str → Str) (st : AppState)
    (hnd : st.sortedGroupNames.Nodup) (cats : List (Str × List Str)) (used : List Str)
    (pre : List (Str × List Str))
    (hinv : ∀ g ∈ st.sortedGroupNames,
      g ∈ used ↔ (pre.any fun c => matchesPatterns upper c.2 g) = true) :
    (sectionsFrom upper st used cats).map
        (fun sec => (sec.title, sec.mGrid.map ModuleCard.gName)) =
      expectedSections upper st.sortedGroupNames pre cats := by
  induction cats generalizing used pre with
  | nil => rfl
  | cons cat rest ih =>
    have hp := pick_eq_claimedNames upper st.sortedGroupNames used pre cat.2 hnd hinv
    have hstep := used_step upper st.sortedGroupNames used pre cat hinv
    simp only [sectionsFrom, expectedSections, List.map_append]
    rw [ih _ _ hstep, hp]
    congr 1
    cases hc : (claimedNames upper st.sortedGroupNames pre cat.2).isEmpty
    · simp only [Bool.false_eq_true, if_false, List.map_cons, List.map_nil, List.map_map]
      rw [show (ModuleCard.gName ∘ cardOf st) = id from rfl, List.map_id]
    · simp

theorem usedAfter_inv (upper : Str → Str) (st : AppState) (cats : List (Str × List Str))
    (used : List Str) (pre : List (Str × List Str))
    (hinv : ∀ g ∈ st.sortedGroupNames,
      g ∈ used ↔ (pre.any fun c => matchesPatterns upper c.2 g) = true) :
    ∀ g ∈ st.sortedGroupNames, g ∈ usedAfter upper st used cats ↔
      ((pre ++ cats).any fun c => matchesPatterns upper c.2 g) = true := by
  induction cats generalizing used pre with
  | nil => simpa [usedAfter] using hinv
  | cons cat rest ih =>
    have h := ih _ _ (used_step upper st.sortedGroupNames used pre cat hinv)
    simpa [usedAfter, List.append_assoc] using h

theorem matchesPatterns_perm (upper : Str → Str) (p1 p2 : List Str) (h : p1.Perm p2) :
    matchesPatterns upper p1 = matchesPatterns upper p2 := by
  funext g
  rw [Bool.eq_iff_iff, matchesPatterns_iff, matchesPatterns_iff]
  constructor
  · rintro ⟨p, hp, hx⟩
    exact ⟨p, h.mem_iff.1 hp, hx⟩
  · rintro ⟨p, hp, hx⟩
    exact ⟨p, h.mem_iff.2 hp, hx⟩

theorem pick_congr (upper : Str → Str) (p1 p2 : List Str)
    (h : matchesPatterns upper p1 = matchesPatterns upper p2) (used names : List Str) :
    pick upper p1 used names = pick upper p2 used names := by
  induction names generalizing used with
  | nil => rfl
  | cons g ns ih =>
    simp only [pick, h, ih]

theorem sectionsFrom_samePatterns (upper : Str → Str) (st : AppState)
    (cats1 cats2 : List (Str × List Str)) (h : SamePatterns cats1 cats2) (used : List Str) :
    sectionsFrom upper st used cats1 = sectionsFrom upper st used cats2 ∧
      usedAfter upper st used cats1 = usedAfter upper st used cats2 := by
  unfold SamePatterns at h
  induction h generalizing used with
  | nil => exact ⟨rfl, rfl⟩
  | cons hc _ ih =>
    have hp := pick_congr upper _ _ (matchesPatterns_perm upper _ _ hc.2) used
      st.sortedGroupNames
    simp only [sectionsFrom, usedAfter, hp, hc.1]
    exact ⟨by rw [(ih _).1], (ih _).2⟩

/-- C6. Output ordering of the classifier: for every dataset `processData` returns
on, category table and `toUpperCase`, the group names of the cards inside each
category section, and those of the cards of the fallback grid, are subsequences of
`sortedGroupNames` and in strictly ascending code-unit order. The sections are, in
table order, the categories that claim a name, each holding exactly the sorted group
names one of its patterns occurs in and no pattern of an earlier category does, in the
order of `sortedGroupNames`; the fallback grid holds exactly the sorted group names no
pattern occurs in, in that order; and listing the patterns of the categories in another
order leaves the dashboard unchanged. -/
theorem renderDashboard_sorted (upper : Str → Str) (cats : List (Str × List Str))
    (data : List Peripheral) (st : AppState) (h : processData data = Except.ok st) :
    (∀ sec ∈ (renderDashboard upper cats st).grid,
      (sec.mGrid.map ModuleCard.gName).Sublist st.sortedGroupNames ∧
      (sec.mGrid.map ModuleCard.gName).Pairwise (fun a b => strLt a b = true)) ∧
    ((renderDashboard upper cats st).fallbackGrid.map ModuleCard.gName).Sublist
      st.sortedGroupNames ∧
    ((renderDashboard upper cats st).fallbackGrid.map ModuleCard.gName).Pairwise
      (fun a b => strLt a b = true) ∧
    (renderDashboard upper cats st).grid.map
        (fun sec => (sec.title, sec.mGrid.map ModuleCard.gName)) =
      expectedSections upper st.sortedGroupNames [] cats ∧
    (renderDashboard upper cats st).fallbackGrid.map ModuleCard.gName =
      st.sortedGroupNames.filter
        (fun g => !(cats.any fun c => matchesPatterns upper c.2 g)) ∧
    (∀ g, g ∈ st.sortedGroupNames ↔ g ∈ data.map groupNameOf) ∧
    st.sortedGroupNames.Pairwise (fun a b => strLt a b = true) ∧
    (∀ cats2, SamePatterns cats cats2 →
      renderDashboard upper cats2 st = renderDashboard upper cats st) := by
  obtain ⟨hnd, hs, hmem⟩ := processData_sorted data st h
  have hfb : ((renderDashboard upper cats st).fallbackGrid.map ModuleCard.gName).Sublist
      st.sortedGroupNames := by
    rw [renderDashboard_eq]
    simp only [List.map_map]
    rw [show (ModuleCard.gName ∘ cardOf st) = id from rfl, List.map_id]
    exact List.filter_sublist _
  have hinv0 : ∀ g ∈ st.sortedGroupNames,
      g ∈ ([] : List Str) ↔
        (([] : List (Str × List Str)).any fun c => matchesPatterns upper c.2 g) = true := by
    intro g _
    simp
  refine ⟨?_, hfb, hs.sublist hfb, ?_, ?_, hmem, hs, ?_⟩
  · intro sec hsec
    rw [renderDashboard_eq] at hsec
    have hsub := sectionsFrom_sublist upper st cats [] sec hsec
    exact ⟨hsub, hs.sublist hsub⟩
  · rw [renderDashboard_eq]
    exact sectionsFrom_eq_expected upper st hnd cats [] [] hinv0
  · rw [renderDashboard_eq]
    simp only [List.map_map]
    rw [show (ModuleCard.gName ∘ cardOf st) = id from rfl, List.map_id]
    refine List.filter_congr ?_
    intro g hg
    have hu := usedAfter_inv upper st cats [] [] hinv0 g hg
    rw [List.nil_append] at hu
    by_cases hx : g ∈ usedAfter upper st [] cats
    · have h1 := hu.1 hx
      simp [hx, h1]
    · have h1 : (cats.any fun c => matchesPatterns upper c.2 g) = false := by
        cases hc : cats.any fun c => matchesPatterns upper c.2 g
        · rfl
        · exact absurd (hu.2 hc) hx
      simp [hx, h1]
  · intro cats2 h2
    have hsame := sectionsFrom_samePatterns upper st cats cats2 h2 []
    rw [renderDashboard_eq, renderDashboard_eq, hsame.1, hsame.2]

/-- Witness of C6: a dataset listed out of name order whose groups `CAN`, `LPI2C` and
`LPUART` all fall under `Connectivity`, whose patterns list `LPUART` first and `CAN`
last, and whose groups `AUX` and `WIDGET` fall to the fallback grid. The section shows
`CAN`, `LPI2C`, `LPUART` in that order, the fallback grid `AUX`, `WIDGET`, and reversing
the patterns of `Connectivity` gives the same dashboard. -/
theorem renderDashboard_sorted_witness :
    processData mixedData = Except.ok mixedState ∧
    ((∀ sec ∈ (renderDashboard asciiUpper P_CATEGORIES mixedState).grid,
      (sec.mGrid.map ModuleCard.gName).Sublist mixedState.sortedGroupNames ∧
      (sec.mGrid.map ModuleCard.gName).Pairwise (fun a b => strLt a b = true)) ∧
    ((renderDashboard asciiUpper P_CATEGORIES mixedState).fallbackGrid.map
      ModuleCard.gName).Sublist mixedState.sortedGroupNames ∧
    ((renderDashboard asciiUpper P_CATEGORIES mixedState).fallbackGrid.map
      ModuleCard.gName).Pairwise (fun a b => strLt a b = true) ∧
    (renderDashboard asciiUpper P_CATEGORIES mixedState).grid.map
        (fun sec => (sec.title, sec.mGrid.map ModuleCard.gName)) =
      expectedSections asciiUpper mixedState.sortedGroupNames [] P_CATEGORIES ∧
    (renderDashboard asciiUpper P_CATEGORIES mixedState).fallbackGrid.map ModuleCard.gName =
      mixedState.sortedGroupNames.filter
        (fun g => !(P_CATEGORIES.any fun c => matchesPatterns asciiUpper c.2 g)) ∧
    (∀ g, g ∈ mixedState.sortedGroupNames ↔ g ∈ mixedData.map groupNameOf) ∧
    mixedState.sortedGroupNames.Pairwise (fun a b => strLt a b = true) ∧
    (∀ cats2, SamePatterns P_CATEGORIES cats2 →
      renderDashboard asciiUpper cats2 mixedState =
        renderDashboard asciiUpper P_CATEGORIES mixedState)) ∧
    renderDashboard asciiUpper P_CATEGORIES mixedState =
      { grid :=
          [{ title := ofAscii "Connectivity",
             mGrid := [{ gName := ofAscii "CAN", count := 1 },
                       { gName := ofAscii "LPI2C", count := 1 },
                       { gName := ofAscii "LPUART", count := 2 }] },
           { title := ofAscii "IO", mGrid := [{ gName := ofAscii "GPIO", count := 1 }] }],
        fallbackGrid := [{ gName := ofAscii "AUX", count := 1 },
                         { gName := ofAscii "WIDGET", count := 1 }] } ∧
    renderDashboard asciiUpper reversedConnectivity mixedState =
      renderDashboard asciiUpper P_CATEGORIES mixedState ∧
    P_CATEGORIES.lookup (ofAscii "Connectivity") =
      some (["LPUART", "LPI2C", "LPSPI", "FLEXIO", "USDHC", "ENET", "USB", "USBPHY", "USBNC",
        "CAN"].map ofAscii) :=
  ⟨by decide,
    renderDashboard_sorted asciiUpper P_CATEGORIES mixedData mixedState (by decide),
    by decide, by decide, by decide⟩

/-! ## Properties of the instance list -/

/-- C7, the failing input: after `processData` the group `LPUART` holds its instances
in input order, `LPUART2` before `LPUART1`; `renderInstances("LPUART")` sorts that array
in place, so afterwards `App.groups` holds `LPUART1` before `LPUART2`. -/
theorem renderInstances_mutates_groups :
    processData sampleData = Except.ok sampleState ∧
    renderInstances codeUnitCompare sampleState (ofAscii "LPUART") =
      Except.ok (sampleStateAfter,
        [{ name := ofAscii "LPUART1", groupName := some (ofAscii "LPUART"),
           baseAddress := ofAscii "0x40184000" },
         { name := ofAscii "LPUART2", groupName := some (ofAscii "LPUART"),
           baseAddress := ofAscii "0x40188000" }]) ∧
    sampleStateAfter.groups ≠ sampleState.groups := by
  decide

theorem getProp_array (groups : GroupIndex) (k : Str) (a : List Peripheral)
    (h : getProp groups k = PropValue.array a) :
    groups.lookup k = some a ∧ k ∈ groups.map Prod.fst := by
  have hl : groups.lookup k = some a := by
    unfold getProp at h
    cases hl : groups.lookup k with
    | none =>
      rw [hl] at h
      simp only at h
      split_ifs at h
    | some b =>
      rw [hl] at h
      simp only [PropValue.array.injEq] at h
      rw [h]
  refine ⟨hl, ?_⟩
  rw [← lookup_isSome_iff, hl]
  rfl

theorem setOwn_setOwn (groups : GroupIndex) (k : Str) (v : List Peripheral) :
    setOwn (setOwn groups k v) k v = setOwn groups k v := by
  unfold setOwn
  rw [List.map_map]
  refine List.map_congr_left ?_
  intro kv _
  simp only [Function.comp]
  by_cases hk : kv.1 = k
  · simp [hk]
  · simp [hk]

theorem filter_orderedInsert {α : Type} (r : α → α → Prop) [DecidableRel r]
    (htrans : ∀ a b c, r a b → r b c → r a c) (x a : α) (l : List α) :
    (l.orderedInsert r a).filter (fun y => decide (r x y ∧ r y x)) =
      (a :: l).filter (fun y => decide (r x y ∧ r y x)) := by
  induction l with
  | nil => rfl
  | cons b l ih =>
    simp only [List.orderedInsert]
    split_ifs with hab
    · rfl
    · rw [List.filter_cons, ih]
      by_cases hb : r x b ∧ r b x
      · by_cases ha : r x a ∧ r a x
        · exact absurd (htrans a x b ha.2 hb.1) hab
        · simp [List.filter_cons, hb, ha]
      · simp [List.filter_cons, hb]

/-- The sort is stable: elements that compare equal to `x` keep their order. -/
theorem filter_insertionSort {α : Type} (r : α → α → Prop) [DecidableRel r]
    (htrans : ∀ a b c, r a b → r b c → r a c) (x : α) (l : List α) :
    (l.insertionSort r).filter (fun y => decide (r x y ∧ r y x)) =
      l.filter (fun y => decide (r x y ∧ r y x)) := by
  induction l with
  | nil => rfl
  | cons a l ih =>
    rw [List.insertionSort, filter_orderedInsert r htrans, List.filter_cons, List.filter_cons, ih]

/-- C8. Instance sort idempotence: for every comparator that is a total preorder,
every state of `App` and every group with an instance array, `renderInstances` returns
and shows a permutation of the instances of the group that is sorted ascending by name
under the comparator, instances whose names compare equal staying in their order;
sorting the shown sequence again with the same sort leaves it unchanged, and a second
call of `renderInstances` shows the same sequence. -/
theorem renderInstances_sorted_idempotent (localeCompare : Str → Str → Int)
    (htotal : ∀ a b, localeCompare a b ≤ 0 ∨ localeCompare b a ≤ 0)
    (htrans : ∀ a b c, localeCompare a b ≤ 0 → localeCompare b c ≤ 0 → localeCompare a c ≤ 0)
    (st : AppState) (groupName : Str) (instances : List Peripheral)
    (hg : getProp st.groups groupName = PropValue.array instances) :
    ∃ st1 shown, renderInstances localeCompare st groupName = Except.ok (st1, shown) ∧
      shown.Perm instances ∧
      shown.Pairwise (fun a b => localeCompare a.name b.name ≤ 0) ∧
      (∀ x : Peripheral,
        shown.filter (fun y => decide (localeCompare x.name y.name ≤ 0 ∧
          localeCompare y.name x.name ≤ 0)) =
        instances.filter (fun y => decide (localeCompare x.name y.name ≤ 0 ∧
          localeCompare y.name x.name ≤ 0))) ∧
      shown.insertionSort (nameOrder localeCompare) = shown ∧
      renderInstances localeCompare st1 groupName = Except.ok (st1, shown) := by
  haveI : IsTotal Peripheral (nameOrder localeCompare) := ⟨fun a b => htotal a.name b.name⟩
  haveI : IsTrans Peripheral (nameOrder localeCompare) :=
    ⟨fun a b c h1 h2 => htrans a.name b.name c.name h1 h2⟩
  have hsorted : (instances.insertionSort (nameOrder localeCompare)).Sorted
      (nameOrder localeCompare) := List.sorted_insertionSort _ instances
  have hkey := (getProp_array _ _ _ hg).2
  refine ⟨AppState.mk
      (setOwn st.groups groupName (instances.insertionSort (nameOrder localeCompare)))
      st.sortedGroupNames,
    instances.insertionSort (nameOrder localeCompare), ?_, List.perm_insertionSort _ _,
    hsorted, ?_, hsorted.insertionSort_eq, ?_⟩
  · simp only [renderInstances, hg]
  · intro x
    exact filter_insertionSort (nameOrder localeCompare)
      (fun a b c h1 h2 => htrans a.name b.name c.name h1 h2) x instances
  · have hl := lookup_setOwn st.groups groupName
      (instances.insertionSort (nameOrder localeCompare)) hkey
    simp only [renderInstances, getProp, hl, hsorted.insertionSort_eq, setOwn_setOwn]

theorem codeUnitCompare_le_iff (a b : Str) : codeUnitCompare a b ≤ 0 ↔ strLe a b := by
  unfold codeUnitCompare strLe
  cases hab : strLt a b
  · cases hba : strLt b a <;> simp
  · simp [strLt_asymm a b hab]

/-- Witness of C8: the group `LPUART` of the sample state under code-unit comparison. -/
theorem renderInstances_sorted_idempotent_witness :
    (∀ a b, codeUnitCompare a b ≤ 0 ∨ codeUnitCompare b a ≤ 0) ∧
    (∀ a b c, codeUnitCompare a b ≤ 0 → codeUnitCompare b c ≤ 0 → codeUnitCompare a c ≤ 0) ∧
    getProp sampleState.groups (ofAscii "LPUART") =
      PropValue.array
        [{ name := ofAscii "LPUART2", groupName := some (ofAscii "LPUART"),
           baseAddress := ofAscii "0x40188000" },
         { name := ofAscii "LPUART1", groupName := some (ofAscii "LPUART"),
           baseAddress := ofAscii "0x40184000" }] ∧
    ∃ st1 shown, renderInstances codeUnitCompare sampleState (ofAscii "LPUART") =
        Except.ok (st1, shown) ∧
      shown.Perm
        [{ name := ofAscii "LPUART2", groupName := some (ofAscii "LPUART"),
           baseAddress := ofAscii "0x40188000" },
         { name := ofAscii "LPUART1", groupName := some (ofAscii "LPUART"),
           baseAddress := ofAscii "0x40184000" }] ∧
      shown.Pairwise (fun a b => codeUnitCompare a.name b.name ≤ 0) ∧
      (∀ x : Peripheral,
        shown.filter (fun y => decide (codeUnitCompare x.name y.name ≤ 0 ∧
          codeUnitCompare y.name x.name ≤ 0)) =
        ([{ name := ofAscii "LPUART2", groupName := some (ofAscii "LPUART"),
            baseAddress := ofAscii "0x40188000" },
          { name := ofAscii "LPUART1", groupName := some (ofAscii "LPUART"),
            baseAddress := ofAscii "0x40184000" }] : List Peripheral).filter
          (fun y => decide (codeUnitCompare x.name y.name ≤ 0 ∧
            codeUnitCompare y.name x.name ≤ 0))) ∧
      shown.insertionSort (nameOrder codeUnitCompare) = shown ∧
      renderInstances codeUnitCompare st1 (ofAscii "LPUART") = Except.ok (st1, shown) :=
  have htotal : ∀ a b, codeUnitCompare a b ≤ 0 ∨ codeUnitCompare b a ≤ 0 := fun a b => by
    rw [codeUnitCompare_le_iff, codeUnitCompare_le_iff]
    exact strLe_total.total a b
  have htrans : ∀ a b c, codeUnitCompare a b ≤ 0 → codeUnitCompare b c ≤ 0 →
      codeUnitCompare a c ≤ 0 := fun a b c => by
    rw [codeUnitCompare_le_iff, codeUnitCompare_le_iff, codeUnitCompare_le_iff]
    exact strLe_trans.trans a b c
  ⟨htotal, htrans, by decide,
    renderInstances_sorted_idempotent codeUnitCompare htotal htrans sampleState
      (ofAscii "LPUART") _ (by decide)⟩

end PeripheralViewer
